import Mathlib

/-!
Verification of the mutable-repository transaction layer (`MutableRepo` in
`src/lib/src/repo.rs`): the rewrite ledger (`parent_mapping`), computation of
new parents, view-invariant enforcement, reference and head updates after
rewrites, `record_rewrites`, and working-copy pointer updates.

Commit ids, change ids, tree ids and workspace names are modelled as `Nat`.
Hash maps and B-tree maps are modelled as association lists with
overwrite-on-insert; hash sets of commit ids as duplicate-free lists.
External collaborators that live outside the verified sources (the commit
store, the index, the revset engine, ref-target merging) appear as explicit
parameters or as definitions modelled from the specification, each marked as
such in its doc comment.
-/

namespace JJ

/-- Association-list lookup, mirroring `HashMap::get` / `BTreeMap::get`. -/
def alLookup {α : Type} (l : List (Nat × α)) (k : Nat) : Option α :=
  match l with
  | [] => none
  | (k', v) :: rest => if k' = k then some v else alLookup rest k

/-- Association-list insert with overwrite, mirroring `HashMap::insert` /
`BTreeMap::insert` (last write wins). -/
def alInsert {α : Type} (k : Nat) (v : α) (l : List (Nat × α)) : List (Nat × α) :=
  (k, v) :: l.filter (fun e => e.1 != k)

/-- The key set of an association list. -/
def alKeys {α : Type} (l : List (Nat × α)) : List Nat :=
  l.map Prod.fst

/-- A commit as stored in the commit store: parent ids, tree id, change id
(`Commit` in `src/lib/src/backend.rs`-land; only the fields the claims need). -/
structure CommitData where
  parents : List Nat
  tree : Nat
  changeId : Nat
  deriving DecidableEq, Repr

/-- The commit store interface: the root commit id and `get_commit`, modelled
as a finite table. -/
structure Store where
  root : Nat
  commits : List (Nat × CommitData)
  deriving DecidableEq, Repr

/-- `Store::get_commit`. -/
def Store.get_commit (s : Store) (id : Nat) : Option CommitData :=
  alLookup s.commits id

/-- `Rewrite` from `src/lib/src/repo.rs`: a rewrite-ledger entry. -/
inductive Rewrite where
  /-- The old commit was rewritten as this new commit. -/
  | Rewritten (newId : Nat)
  /-- The old commit was rewritten as multiple other commits. -/
  | Divergent (newIds : List Nat)
  /-- The old commit was abandoned; children rebase onto the given commits. -/
  | Abandoned (newIds : List Nat)
  deriving DecidableEq, Repr

/-- `Rewrite::new_parent_ids`. -/
def Rewrite.new_parent_ids : Rewrite → List Nat
  | .Rewritten newId => [newId]
  | .Divergent newIds => newIds
  | .Abandoned newIds => newIds

/-- A ref target, modelled from the spec: a non-empty odd-length alternating
sequence of optional commit ids where even indices are "adds" and odd indices
are "removes" (`RefTarget` lives in `op_store.rs`, outside the verified
sources). -/
def RefTarget : Type := List (Option Nat)

instance : DecidableEq RefTarget := by
  unfold RefTarget
  infer_instance

/-- `RefTarget::absent`. Modelled from the spec: the no-pointer value. -/
def RefTarget.absent : RefTarget := [none]

/-- `RefTarget::normal`. Modelled from the spec: a single commit pointer. -/
def RefTarget.normal (c : Nat) : RefTarget := [some c]

/-- `RefTarget::added_ids`. Modelled from the spec: the present ids at even
positions of the alternating merge sequence. -/
def RefTarget.added_ids : RefTarget → List Nat
  | [] => []
  | [a] => a.toList
  | a :: _ :: rest => a.toList ++ RefTarget.added_ids rest

/-- The state of a `MutableRepo` that the claims are about: the rewrite ledger
`parent_mapping`, and the view's head set, per-workspace working-copy pointers
and local bookmarks.  Commit writes performed during the transaction
(`CommitBuilder::write`) are modelled by the `newCommits` table together with
a fresh-id counter. -/
structure MRepo where
  parentMapping : List (Nat × Rewrite)
  headIds : List Nat
  wcCommitIds : List (Nat × Nat)
  localBookmarks : List (Nat × RefTarget)
  newCommits : List (Nat × CommitData)
  nextCommitId : Nat
  deriving DecidableEq

/-- `MutableRepo::set_rewritten_commit`.  The `assert_ne!(old_id, root)` is
modelled as returning `none` (fail-fast). -/
def set_rewritten_commit (store : Store) (st : MRepo) (old_id new_id : Nat) :
    Option MRepo :=
  if old_id = store.root then none
  else some { st with parentMapping := alInsert old_id (.Rewritten new_id) st.parentMapping }

/-- `MutableRepo::set_divergent_rewrite`. -/
def set_divergent_rewrite (store : Store) (st : MRepo) (old_id : Nat)
    (new_ids : List Nat) : Option MRepo :=
  if old_id = store.root then none
  else some { st with parentMapping := alInsert old_id (.Divergent new_ids) st.parentMapping }

/-- `MutableRepo::record_abandoned_commit_with_parents`. -/
def record_abandoned_commit_with_parents (store : Store) (st : MRepo)
    (old_id : Nat) (new_parent_ids : List Nat) : Option MRepo :=
  if old_id = store.root then none
  else some { st with parentMapping := alInsert old_id (.Abandoned new_parent_ids) st.parentMapping }

/-- `MutableRepo::record_abandoned_commit`: asserts the commit is not the root
and delegates with the commit's own parents. -/
def record_abandoned_commit (store : Store) (st : MRepo) (old_id : Nat)
    (old_commit : CommitData) : Option MRepo :=
  if old_id = store.root then none
  else record_abandoned_commit_with_parents store st old_id old_commit.parents

/-- One ledger-touching `MutableRepo` operation (the four recording entry
points, plus the `parent_mapping.clear()` performed by the
`rebase_descendants` family). -/
inductive LedgerOp where
  | setRewritten (old_id new_id : Nat)
  | setDivergent (old_id : Nat) (new_ids : List Nat)
  | recordAbandoned (old_id : Nat) (old_commit : CommitData)
  | recordAbandonedWithParents (old_id : Nat) (new_parent_ids : List Nat)
  | clearMapping

/-- Apply one ledger operation. -/
def applyLedgerOp (store : Store) (st : MRepo) : LedgerOp → Option MRepo
  | .setRewritten old_id new_id => set_rewritten_commit store st old_id new_id
  | .setDivergent old_id new_ids => set_divergent_rewrite store st old_id new_ids
  | .recordAbandoned old_id old_commit => record_abandoned_commit store st old_id old_commit
  | .recordAbandonedWithParents old_id ps =>
      record_abandoned_commit_with_parents store st old_id ps
  | .clearMapping => some { st with parentMapping := [] }

/-- Apply a sequence of ledger operations, stopping at the first assertion
failure. -/
def applyLedgerOps (store : Store) (st : MRepo) : List LedgerOp → Option MRepo
  | [] => some st
  | op :: rest =>
    match applyLedgerOp store st op with
    | none => none
    | some st' => applyLedgerOps store st' rest

/-- An empty repo-model state, used by concrete witnesses. -/
def emptyRepo : MRepo :=
  { parentMapping := []
    headIds := []
    wcCommitIds := []
    localBookmarks := []
    newCommits := []
    nextCommitId := 100 }

/-- The `RewriteRootCommit` error ("Cannot rewrite the root commit"). -/
structure RewriteRootCommit where
  deriving DecidableEq

/-- `MutableRepo::set_wc_commit`: rejects the root commit, otherwise records
the workspace's working-copy commit id in the view.  The Rust method mutates
`self` and returns `Result<(), RewriteRootCommit>`; we return the (possibly
unchanged) state together with the result. -/
def set_wc_commit (store : Store) (st : MRepo) (name commit_id : Nat) :
    MRepo × Except RewriteRootCommit Unit :=
  if commit_id = store.root then (st, .error ⟨⟩)
  else ({ st with wcCommitIds := alInsert name commit_id st.wcCommitIds }, .ok ())

/-- `Index::heads`.  Modelled from the spec: given an ancestry relation, drop
every id that is a (strict) ancestor of another member, keeping only the
non-maximal-free heads (the index implementation lives outside the verified
sources). -/
def index_heads (anc : Nat → Nat → Bool) (ids : List Nat) : List Nat :=
  ids.filter (fun a => !(ids.any (fun b => b != a && anc a b)))

/-- `MutableRepo::enforce_view_invariants`: pad an empty head set with the
root, or (when there is more than one head) drop the root and replace the set
by `index.heads(head_ids)`.  The final `assert!(!head_ids.is_empty())` is
modelled as returning `none`. -/
def enforce_view_invariants (store : Store) (anc : Nat → Nat → Bool)
    (heads : List Nat) : Option (List Nat) :=
  let new_heads :=
    if heads.isEmpty then [store.root]
    else if 1 < heads.length then
      index_heads anc (heads.filter (fun h => h != store.root))
    else heads
  if new_heads.isEmpty then none else some new_heads

/-- Insertion into a hash set of commit ids. -/
def setInsert (x : Nat) (l : List Nat) : List Nat :=
  if l.contains x then l else x :: l

/-- `MutableRepo::update_heads`.  The revset `parents(keys) − keys` is
modelled from the spec by the abstract commit-DAG parent function
`parentsF` (the revset engine lives outside the verified sources): the
heads-to-add are the parents of ledger keys that are not themselves ledger
keys; every ledger key is removed from the view's head set and the
heads-to-add are inserted. -/
def update_heads (parentsF : Nat → List Nat) (st : MRepo) : MRepo :=
  let keys := alKeys st.parentMapping
  let heads_to_add := (keys.flatMap parentsF).filter (fun p => !(keys.contains p))
  let removed := st.headIds.filter (fun h => !(keys.contains h))
  { st with headIds := heads_to_add.foldl (fun acc x => setInsert x acc) removed }

/-- `Rewrite::Divergent` recognizer (`matches!(rewrite, Rewrite::Divergent(_))`). -/
def Rewrite.is_divergent : Rewrite → Bool
  | .Divergent _ => true
  | _ => false

/-- `self.parent_mapping.get(id).filter(|&v| predicate(v))`. -/
def lookupFiltered (pm : List (Nat × Rewrite)) (pred : Rewrite → Bool) (id : Nat) :
    Option Rewrite :=
  match alLookup pm id with
  | none => none
  | some rw => if pred rw then some rw else none

/-- Result of the `rewritten_ids_with` worklist: the produced id list, an
assertion failure (`assert!` in the source), or fuel exhaustion.  The fuel is
bookkeeping for the terminating Rust loop; `rewritten_ids_with` supplies
sufficient fuel and `rewriteLoop_ne_outOfFuel` shows it is never exhausted. -/
inductive RRes where
  | ok (ids : List Nat)
  | assertFail
  | outOfFuel
  deriving DecidableEq, Repr

/-- The loop of `MutableRepo::rewritten_ids_with`: pop an id from the front of
the worklist; skip it if already visited; emit it if unmapped (or filtered
out by the predicate); otherwise push its replacements (asserting they are
non-empty).  At the end, assert the output non-empty. -/
def rewriteLoop (pm : List (Nat × Rewrite)) (pred : Rewrite → Bool) :
    Nat → List Nat → List Nat → List Nat → RRes
  | _, [], _, new_ids => if new_ids.isEmpty then .assertFail else .ok new_ids
  | 0, _ :: _, _, _ => .outOfFuel
  | fuel + 1, id :: rest, visited, new_ids =>
    if visited.contains id then rewriteLoop pm pred fuel rest visited new_ids
    else
      match lookupFiltered pm pred id with
      | none => rewriteLoop pm pred fuel rest (id :: visited) (new_ids ++ [id])
      | some rw =>
        if rw.new_parent_ids.isEmpty then .assertFail
        else rewriteLoop pm pred fuel (rw.new_parent_ids ++ rest) (id :: visited) new_ids

/-- Fuel bookkeeping: the weight an unvisited ledger entry can still add to
the worklist. -/
def entryWeight (pred : Rewrite → Bool) (visited : List Nat) (e : Nat × Rewrite) : Nat :=
  if visited.contains e.1 then 0
  else if pred e.2 then e.2.new_parent_ids.length else 0

/-- Total remaining expansion weight of the ledger. -/
def pendingWeight (pm : List (Nat × Rewrite)) (pred : Rewrite → Bool)
    (visited : List Nat) : Nat :=
  (pm.map (entryWeight pred visited)).sum

/-- `MutableRepo::rewritten_ids_with`: asserts the input non-empty, then runs
the worklist with fuel that `rewriteLoop_ne_outOfFuel` proves sufficient. -/
def rewritten_ids_with (pm : List (Nat × Rewrite)) (pred : Rewrite → Bool)
    (old_ids : List Nat) : RRes :=
  if old_ids.isEmpty then .assertFail
  else rewriteLoop pm pred (pendingWeight pm pred [] + old_ids.length) old_ids [] []

/-- `MutableRepo::new_parents`: `rewritten_ids_with` under the
not-`Divergent` predicate. -/
def new_parents (pm : List (Nat × Rewrite)) (old_ids : List Nat) : RRes :=
  rewritten_ids_with pm (fun rewrite => !(rewrite.is_divergent)) old_ids

/-- One replacement step through the ledger: `stepRel pm pred b a` holds when
`a` is mapped (and passes the predicate) and `b` is one of its replacements.
Acyclicity of `parent_mapping` is well-foundedness of this relation. -/
def stepRel (pm : List (Nat × Rewrite)) (pred : Rewrite → Bool) (b a : Nat) : Prop :=
  ∃ rw, lookupFiltered pm pred a = some rw ∧ b ∈ rw.new_parent_ids

/-- Stable deduplication keeping first occurrences, relative to an initial
set of already-seen ids. -/
def dedupFrom : List Nat → List Nat → List Nat
  | _, [] => []
  | seen, id :: rest =>
    if seen.contains id then dedupFrom seen rest
    else id :: dedupFrom (id :: seen) rest

/-- `RewriteRefsOptions`. -/
structure RewriteRefsOptions where
  delete_abandoned_bookmarks : Bool
  deriving DecidableEq

/-- `itertools::intersperse`: `intersperse [n1, .., nk] old = [n1, old, n2, old, .., nk]`. -/
def intersperse (xs : List Nat) (sep : Nat) : List Nat :=
  match xs with
  | [] => []
  | [x] => [x]
  | x :: rest => x :: sep :: intersperse rest sep

/-- `View::set_local_bookmark_target` preceded by the `add_head` loop of
`MutableRepo::set_local_bookmark_target`: every added id of the new target is
inserted into the head set, then the bookmark is stored. -/
def set_local_bookmark_target (st : MRepo) (name : Nat) (target : RefTarget) : MRepo :=
  { st with
    headIds := (target.added_ids).foldl (fun acc id => setInsert id acc) st.headIds
    localBookmarks := alInsert name target st.localBookmarks }

/-- `MutableRepo::merge_local_bookmark`: 3-way merge of the bookmark's current
target with `other_target` against `base_target`.  `merge_ref_targets` lives
in `refs.rs`, outside the verified sources, and is the abstract parameter
`mrt` (self, base, other). -/
def merge_local_bookmark (mrt : RefTarget → RefTarget → RefTarget → RefTarget)
    (st : MRepo) (name : Nat) (base_target other_target : RefTarget) : MRepo :=
  let self_target := (alLookup st.localBookmarks name).getD RefTarget.absent
  set_local_bookmark_target st name (mrt self_target base_target other_target)

/-- The `changed_branches` snapshot of `MutableRepo::update_local_bookmarks`:
for each local bookmark, each added id of its target that is a key of the
resolved rewrite mapping, paired with the mapped replacement ids. -/
def changed_branches (st : MRepo) (rewrite_mapping : List (Nat × List Nat)) :
    List (Nat × Nat × List Nat) :=
  st.localBookmarks.flatMap (fun nt =>
    (nt.2.added_ids).filterMap (fun id =>
      match alLookup rewrite_mapping id with
      | none => none
      | some new_ids => some (nt.1, id, new_ids)))

/-- The `should_delete` condition of `update_local_bookmarks`. -/
def should_delete (pm : List (Nat × Rewrite)) (options : RewriteRefsOptions)
    (old_commit_id : Nat) : Bool :=
  options.delete_abandoned_bookmarks &&
    (match alLookup pm old_commit_id with
     | some (.Abandoned _) => true
     | _ => false)

/-- The `(name, old_target, new_target)` arguments of the `merge_local_bookmark`
call performed for one changed branch: base is `normal(old)`; the other side
is `absent()` under `should_delete`, else the interspersed
`[new1, old, new2, old, .., newk]` merge (all ids present). -/
def bookmark_merge_args (pm : List (Nat × Rewrite)) (options : RewriteRefsOptions)
    (c : Nat × Nat × List Nat) : Nat × RefTarget × RefTarget :=
  (c.1, RefTarget.normal c.2.1,
   if should_delete pm options c.2.1 then RefTarget.absent
   else (intersperse c.2.2 c.2.1).map some)

/-- `MutableRepo::update_local_bookmarks`: collect the changed branches, then
merge each bookmark with the computed target pair.  (`parent_mapping` is not
modified by the loop, so the snapshot `st.parentMapping` is the loop-time
value.) -/
def update_local_bookmarks (mrt : RefTarget → RefTarget → RefTarget → RefTarget)
    (st : MRepo) (rewrite_mapping : List (Nat × List Nat))
    (options : RewriteRefsOptions) : MRepo :=
  ((changed_branches st rewrite_mapping).map
      (bookmark_merge_args st.parentMapping options)).foldl
    (fun s a => merge_local_bookmark mrt s a.1 a.2.1 a.2.2) st

/-- Commit lookup during a transaction: commits written by the transaction
(`newCommits`) shadow-extend the backing store. -/
def get_commit_in (store : Store) (st : MRepo) (id : Nat) : Option CommitData :=
  match alLookup st.newCommits id with
  | some c => some c
  | none => alLookup store.commits id

/-- `CommitBuilder::write` for a fresh working-copy commit: allocate a new
commit id, store the commit with the given parents and tree.  The
content-addressed id and change id produced by the real builder (outside the
verified sources) are modelled by the fresh-id counter. -/
def write_new_commit (st : MRepo) (parents : List Nat) (tree : Nat) : Nat × MRepo :=
  let id := st.nextCommitId
  (id, { st with
    nextCommitId := id + 1
    newCommits := alInsert id { parents := parents, tree := tree, changeId := id }
      st.newCommits })

/-- The `is_commit_referenced` closure of `maybe_abandon_wc_commit`: the
commit is pointed to by another workspace's working copy or by a local
bookmark. -/
def is_commit_referenced (st : MRepo) (workspace_name commit_id : Nat) : Bool :=
  (st.wcCommitIds.filter (fun e => e.1 != workspace_name)).any
      (fun e => e.2 == commit_id) ||
    st.localBookmarks.any (fun bt => (bt.2.added_ids).contains commit_id)

/-- `MutableRepo::maybe_abandon_wc_commit`: the leaving working-copy commit is
abandoned iff it is discardable (a property of tree contents, checked outside
the verified sources and modelled by the `discardable` parameter), not
referenced by bookmarks or other workspaces, and a current head. Failure to
load the commit (`WorkingCopyCommitNotFound`) aborts. -/
def maybe_abandon_wc_commit (store : Store) (discardable : Nat → Bool)
    (st : MRepo) (workspace_name : Nat) : Option MRepo :=
  match alLookup st.wcCommitIds workspace_name with
  | none => some st
  | some wc_commit_id =>
    match get_commit_in store st wc_commit_id with
    | none => none
    | some wc_commit =>
      if discardable wc_commit_id &&
          !(is_commit_referenced st workspace_name wc_commit_id) &&
          st.headIds.contains wc_commit_id then
        record_abandoned_commit store st wc_commit_id wc_commit
      else some st

/-- `MutableRepo::add_head` for a single commit: on the fast path (all parents
currently heads) the head is added and its parents removed; otherwise the
head is added and non-maximal heads are pruned later by
`enforce_view_invariants` on read. -/
def add_head (st : MRepo) (cid : Nat) (cdata : CommitData) : MRepo :=
  if cdata.parents.all (fun p => st.headIds.contains p) then
    { st with headIds :=
        (setInsert cid st.headIds).filter (fun h => !(cdata.parents.contains h)) }
  else { st with headIds := setInsert cid st.headIds }

/-- `MutableRepo::edit`: maybe abandon the leaving working-copy commit, add
the new commit as a head, and set the workspace's working-copy pointer.  Any
error (commit not found, root rewrite) aborts. -/
def edit (store : Store) (discardable : Nat → Bool) (st : MRepo)
    (name cid : Nat) (cdata : CommitData) : Option MRepo :=
  match maybe_abandon_wc_commit store discardable st name with
  | none => none
  | some st1 =>
    let st2 := add_head st1 cid cdata
    let res := set_wc_commit store st2 name cid
    match res.2 with
    | .ok _ => some res.1
    | .error _ => none

/-- The `abandoned_old_commit` test of `update_wc_commits` (also the shape of
`should_delete`'s ledger check): the ledger entry for the commit is
`Abandoned`. -/
def abandonedIn (st : MRepo) (old : Nat) : Bool :=
  match alLookup st.parentMapping old with
  | some (.Abandoned _) => true
  | _ => false

/-- The loop body of `MutableRepo::update_wc_commits` over the
`changed_wc_commits` snapshot, carrying the `recreated_wc_commits` memo
(old commit id → the freshly created shared working-copy commit id). -/
def update_wc_commits_loop (store : Store) (mergeTrees : List Nat → Nat)
    (discardable : Nat → Bool) :
    List (Nat × Nat × List Nat) → List (Nat × Nat) → MRepo → Option MRepo
  | [], _, st => some st
  | (name, old, news) :: rest, recreated, st =>
    let abandoned_old_commit := abandonedIn st old
    if !abandoned_old_commit then
      match news with
      | [] => none
      | n0 :: _ =>
        match get_commit_in store st n0 with
        | none => none
        | some c0 =>
          match edit store discardable st name n0 c0 with
          | none => none
          | some st' => update_wc_commits_loop store mergeTrees discardable rest recreated st'
    else
      match alLookup recreated old with
      | some cid =>
        match get_commit_in store st cid with
        | none => none
        | some c =>
          match edit store discardable st name cid c with
          | none => none
          | some st' => update_wc_commits_loop store mergeTrees discardable rest recreated st'
      | none =>
        if news.all (fun id => (get_commit_in store st id).isSome) then
          let tree := mergeTrees news
          match write_new_commit st news tree with
          | (cid, st1) =>
            match edit store discardable st1 name cid
                { parents := news, tree := tree, changeId := cid } with
            | none => none
            | some st' =>
              update_wc_commits_loop store mergeTrees discardable rest
                (alInsert old cid recreated) st'
        else none

/-- `MutableRepo::update_wc_commits`: for each workspace whose working-copy
commit id is a key of the resolved rewrite map, either move it to
`new_ids[0]` or (when abandoned) to a fresh commit on the merged tree of the
new ids, memoized per old commit.  `merge_commit_trees` (outside the verified
sources) is the abstract parameter `mergeTrees`. -/
def update_wc_commits (store : Store) (mergeTrees : List Nat → Nat)
    (discardable : Nat → Bool) (rewrite_mapping : List (Nat × List Nat))
    (st : MRepo) : Option MRepo :=
  let changed_wc_commits := st.wcCommitIds.filterMap (fun nc =>
    match alLookup rewrite_mapping nc.2 with
    | none => none
    | some news => some (nc.1, nc.2, news))
  update_wc_commits_loop store mergeTrees discardable changed_wc_commits [] st

/-- The per-key result of `MutableRepo::resolve_rewrite_mapping_with` under
the all-pass predicate, using the source's own characterization
(`debug_assert_eq!(new_ids, self.rewritten_ids_with(slice::from_ref(old_id), ..))`):
each ledger key maps to its fully collapsed replacement list.  The
`dag_walk::topo_order_forward` driver (outside the verified sources) is not
modelled; a cycle (panic in the source) yields `none`. -/
def resolve_rewrite_mapping_go (pm : List (Nat × Rewrite)) :
    List (Nat × Rewrite) → Option (List (Nat × List Nat))
  | [] => some []
  | e :: rest =>
    match rewritten_ids_with pm (fun _ => true) [e.1] with
    | .ok ids =>
      match resolve_rewrite_mapping_go pm rest with
      | some m => some ((e.1, ids) :: m)
      | none => none
    | _ => none

/-- `resolve_rewrite_mapping_with(|_| true)` over all ledger entries. -/
def resolve_rewrite_mapping (pm : List (Nat × Rewrite)) : Option (List (Nat × List Nat)) :=
  resolve_rewrite_mapping_go pm pm

/-- `MutableRepo::update_all_references`: resolve the rewrite mapping, update
local bookmarks, then working copies. -/
def update_all_references (mrt : RefTarget → RefTarget → RefTarget → RefTarget)
    (store : Store) (mergeTrees : List Nat → Nat) (discardable : Nat → Bool)
    (options : RewriteRefsOptions) (st : MRepo) : Option MRepo :=
  match resolve_rewrite_mapping st.parentMapping with
  | none => none
  | some rewrite_mapping =>
    let st1 := update_local_bookmarks mrt st rewrite_mapping options
    update_wc_commits store mergeTrees discardable rewrite_mapping st1

/-- `MutableRepo::update_rewritten_references`: `update_all_references`
followed by `update_heads`. -/
def update_rewritten_references (mrt : RefTarget → RefTarget → RefTarget → RefTarget)
    (store : Store) (mergeTrees : List Nat → Nat) (discardable : Nat → Bool)
    (parentsF : Nat → List Nat) (options : RewriteRefsOptions) (st : MRepo) :
    Option MRepo :=
  match update_all_references mrt store mergeTrees discardable options st with
  | none => none
  | some st1 => some (update_heads parentsF st1)

/-- The choice a `transform_descendants` callback makes for one commit
(spec 4.6): leave it untouched, abandon it onto the prepopulated new
parents, or write a rewritten commit (reparent or rebase; the written commit
object is produced by `CommitBuilder`, outside the verified sources, and its
ledger effect is `set_rewritten_commit(old, new)`). -/
inductive CbAction where
  | keep
  | abandon
  | write (new_id : Nat)

/-- Ledger effect of one callback choice. -/
def apply_cb_action (store : Store) (st : MRepo) (old_id : Nat)
    (new_parent_ids : List Nat) : CbAction → Option MRepo
  | .keep => some st
  | .abandon => record_abandoned_commit_with_parents store st old_id new_parent_ids
  | .write new_id => set_rewritten_commit store st old_id new_id

/-- The visit loop of `MutableRepo::transform_commits`: for each commit (in
the rebase order computed by `order_commits_for_rebase`, whose
`dag_walk`-based construction lives outside the verified sources; the claims
proven here do not depend on the order), compute the new parents through the
ledger and run the callback. -/
def transform_commits_loop (store : Store)
    (cb : Nat → CommitData → List Nat → CbAction)
    (new_parents_map : List (Nat × List Nat)) :
    List (Nat × CommitData) → MRepo → Option MRepo
  | [], st => some st
  | (id, c) :: rest, st =>
    let parent_ids := (alLookup new_parents_map id).getD c.parents
    match new_parents st.parentMapping parent_ids with
    | .ok new_parent_ids =>
      match apply_cb_action store st id new_parent_ids (cb id c new_parent_ids) with
      | none => none
      | some st' => transform_commits_loop store cb new_parents_map rest st'
    | _ => none

/-- `MutableRepo::transform_commits`: visit every commit, then
`update_rewritten_references`.  `parent_mapping` is *not* cleared here. -/
def transform_commits (mrt : RefTarget → RefTarget → RefTarget → RefTarget)
    (store : Store) (mergeTrees : List Nat → Nat) (discardable : Nat → Bool)
    (parentsF : Nat → List Nat) (options : RewriteRefsOptions)
    (cb : Nat → CommitData → List Nat → CbAction)
    (commits : List (Nat × CommitData)) (new_parents_map : List (Nat × List Nat))
    (st : MRepo) : Option MRepo :=
  match transform_commits_loop store cb new_parents_map commits st with
  | none => none
  | some st1 =>
    update_rewritten_references mrt store mergeTrees discardable parentsF options st1

/-- `RebaseOptions` (only the field the modelled paths read). -/
structure RebaseOptions where
  rewrite_refs : RewriteRefsOptions
  deriving DecidableEq

/-- `MutableRepo::rebase_or_reparent_descendants_with_options`: transform the
descendants of the ledger keys (the descendant set, computed by the revset
engine outside the verified sources, is the `descendants` parameter) with the
rebase callback — reparent when `should_restore`, else
`rebase_commit_with_options` (in `rewrite.rs`, outside the verified sources;
its write-or-abandon result is the `outcome` parameter) — and afterwards
clear `parent_mapping`. -/
def rebase_or_reparent_descendants_with_options
    (mrt : RefTarget → RefTarget → RefTarget → RefTarget) (store : Store)
    (mergeTrees : List Nat → Nat) (discardable : Nat → Bool)
    (parentsF : Nat → List Nat) (options : RebaseOptions)
    (descendants : List (Nat × CommitData)) (should_restore : Nat → Bool)
    (reparented : Nat → List Nat → Nat) (outcome : Nat → List Nat → CbAction)
    (st : MRepo) : Option MRepo :=
  match transform_commits mrt store mergeTrees discardable parentsF
      options.rewrite_refs
      (fun id c new_parent_ids =>
        if new_parent_ids == c.parents then .keep
        else if should_restore id then .write (reparented id new_parent_ids)
        else outcome id new_parent_ids)
      descendants [] st with
  | none => none
  | some st1 => some { st1 with parentMapping := [] }

/-- `MutableRepo::rebase_or_reparent_descendants` (default options). -/
def rebase_or_reparent_descendants
    (mrt : RefTarget → RefTarget → RefTarget → RefTarget) (store : Store)
    (mergeTrees : List Nat → Nat) (discardable : Nat → Bool)
    (parentsF : Nat → List Nat) (descendants : List (Nat × CommitData))
    (should_restore : Nat → Bool) (reparented : Nat → List Nat → Nat)
    (outcome : Nat → List Nat → CbAction) (st : MRepo) : Option MRepo :=
  rebase_or_reparent_descendants_with_options mrt store mergeTrees discardable
    parentsF { rewrite_refs := { delete_abandoned_bookmarks := false } }
    descendants should_restore reparented outcome st

/-- `MutableRepo::rebase_descendants` (never restores). -/
def rebase_descendants
    (mrt : RefTarget → RefTarget → RefTarget → RefTarget) (store : Store)
    (mergeTrees : List Nat → Nat) (discardable : Nat → Bool)
    (parentsF : Nat → List Nat) (descendants : List (Nat × CommitData))
    (reparented : Nat → List Nat → Nat) (outcome : Nat → List Nat → CbAction)
    (st : MRepo) : Option MRepo :=
  rebase_or_reparent_descendants mrt store mergeTrees discardable parentsF
    descendants (fun _ => false) reparented outcome st

/-- `removed_changes.entry(change_id).or_default().push(commit_id)`. -/
def add_removed (m : List (Nat × List Nat)) (p : Nat × Nat) : List (Nat × List Nat) :=
  match alLookup m p.2 with
  | none => alInsert p.2 [p.1] m
  | some l => alInsert p.2 (l ++ [p.1]) m

/-- `rewritten_commits.entry(old_commit).or_default().push(commit_id)`. -/
def pushOne (rc : List (Nat × List Nat)) (old x : Nat) : List (Nat × List Nat) :=
  match alLookup rc old with
  | none => alInsert old [x] rc
  | some l => alInsert old (l ++ [x]) rc

/-- The body of the second walk of `record_rewrites`: for a new-side
`(commit_id, change_id)` pair, push the commit onto every removed commit of
the same change, and record the change id as rewritten. -/
def add_new (removed : List (Nat × List Nat))
    (acc : List (Nat × List Nat) × List Nat) (p : Nat × Nat) :
    List (Nat × List Nat) × List Nat :=
  let rc :=
    match alLookup removed p.2 with
    | none => acc.1
    | some olds => olds.foldl (fun rc old => pushOne rc old p.1) acc.1
  (rc, setInsert p.2 acc.2)

/-- The `rewritten_commits` dispatch loop of `record_rewrites`: one new
commit gives `set_rewritten_commit`, several give `set_divergent_rewrite`. -/
def apply_rewrites (store : Store) :
    List (Nat × List Nat) → MRepo → Option MRepo
  | [], st => some st
  | (old, news) :: rest, st =>
    match (match news with
           | [n] => set_rewritten_commit store st old n
           | _ => set_divergent_rewrite store st old news) with
    | none => none
    | some st' => apply_rewrites store rest st'

/-- `record_abandoned_commit` over a group of removed commits: each commit is
loaded from the store and recorded as abandoned with its own parents. -/
def abandon_all (store : Store) : List Nat → MRepo → Option MRepo
  | [], st => some st
  | id :: rest, st =>
    match Store.get_commit store id with
    | none => none
    | some c =>
      match record_abandoned_commit store st id c with
      | none => none
      | some st' => abandon_all store rest st'

/-- The abandonment loop of `record_rewrites`: every removed change id not
carried by a new-side commit has all its removed commits abandoned. -/
def apply_abandons (store : Store) (rewritten_changes : List Nat) :
    List (Nat × List Nat) → MRepo → Option MRepo
  | [], st => some st
  | (ch, ids) :: rest, st =>
    if rewritten_changes.contains ch then
      apply_abandons store rewritten_changes rest st
    else
      match abandon_all store ids st with
      | none => none
      | some st' => apply_abandons store rewritten_changes rest st'

/-- `MutableRepo::record_rewrites`: the two revset walks (commits reachable
from one side of the heads but not the other, with their change ids) are
computed by the revset engine outside the verified sources and are the
`removedWalk` / `newWalk` parameters; the classification and ledger updates
follow the source. -/
def record_rewrites (store : Store) (removedWalk newWalk : List (Nat × Nat))
    (st : MRepo) : Option MRepo :=
  let removed_changes := removedWalk.foldl add_removed []
  if removed_changes.isEmpty then some st
  else
    let rcpair := newWalk.foldl (add_new removed_changes) ([], [])
    match apply_rewrites store rcpair.1 st with
    | none => none
    | some st1 => apply_abandons store rcpair.2 removed_changes st1

/-- Whether the new-side pair `p` pushes onto removed commit `old`. -/
def pushTest (removed : List (Nat × List Nat)) (old : Nat) (p : Nat × Nat) : Bool :=
  match alLookup removed p.2 with
  | none => false
  | some olds => olds.contains old

/-- The ledger value `record_rewrites` writes for one rewritten commit:
`Rewritten` for a single new commit, `Divergent` otherwise. -/
def rewriteValue (news : List Nat) : Rewrite :=
  match news with
  | [n] => .Rewritten n
  | _ => .Divergent news

theorem alLookup_insert_self {α : Type} (l : List (Nat × α)) (k : Nat) (v : α) :
    alLookup (alInsert k v l) k = some v := by
  simp [alInsert, alLookup]

theorem alLookup_filter_ne {α : Type} (l : List (Nat × α)) (k k' : Nat)
    (h : k ≠ k') :
    alLookup (l.filter (fun e => e.1 != k)) k' = alLookup l k' := by
  induction l with
  | nil => rfl
  | cons e rest ih =>
    rw [List.filter_cons]
    by_cases he : e.1 = k
    · rw [show (e.1 != k) = false by simp [he]]
      rw [if_neg (by simp)]
      rw [ih]
      simp only [alLookup]
      rw [if_neg (fun hh : e.1 = k' => h (he.symm.trans hh))]
    · rw [show (e.1 != k) = true by simp [he], if_pos rfl]
      simp only [alLookup, ih]

theorem alLookup_insert_ne {α : Type} (l : List (Nat × α)) (k k' : Nat) (v : α)
    (h : k ≠ k') : alLookup (alInsert k v l) k' = alLookup l k' := by
  simp only [alInsert, alLookup, if_neg h]
  exact alLookup_filter_ne l k k' h

theorem mem_alKeys_insert {α : Type} (l : List (Nat × α)) (k a : Nat) (v : α) :
    a ∈ alKeys (alInsert k v l) ↔ a = k ∨ a ∈ alKeys l := by
  simp only [alInsert, alKeys, List.map_cons, List.mem_cons]
  constructor
  · rintro (h | h)
    · exact Or.inl h
    · right
      obtain ⟨e, he, rfl⟩ := List.mem_map.mp h
      exact List.mem_map.mpr ⟨e, (List.mem_filter.mp he).1, rfl⟩
  · rintro (h | h)
    · exact Or.inl h
    · by_cases hk : a = k
      · exact Or.inl hk
      · right
        obtain ⟨e, he, rfl⟩ := List.mem_map.mp h
        exact List.mem_map.mpr ⟨e, List.mem_filter.mpr ⟨he, by simp [hk]⟩, rfl⟩

theorem alLookup_mem_keys {α : Type} (l : List (Nat × α)) (k : Nat) (v : α)
    (h : alLookup l k = some v) : k ∈ alKeys l := by
  induction l with
  | nil => simp [alLookup] at h
  | cons e rest ih =>
    simp only [alLookup] at h
    by_cases he : e.1 = k
    · simp [alKeys, he.symm]
    · rw [if_neg he] at h
      simp [alKeys] at ih ⊢
      right
      have := ih h
      simpa [alKeys] using this

theorem alLookup_not_mem_keys {α : Type} (l : List (Nat × α)) (k : Nat)
    (h : k ∉ alKeys l) : alLookup l k = none := by
  induction l with
  | nil => rfl
  | cons e rest ih =>
    simp only [alKeys, List.map_cons, List.mem_cons, not_or] at h
    simp only [alLookup]
    rw [ih (by simpa [alKeys] using h.2), if_neg (fun he => h.1 he.symm)]

theorem applyLedgerOp_root_not_key (store : Store) (st : MRepo) (op : LedgerOp)
    (st' : MRepo) (hroot : store.root ∉ alKeys st.parentMapping)
    (h : applyLedgerOp store st op = some st') :
    store.root ∉ alKeys st'.parentMapping := by
  cases op with
  | setRewritten old_id new_id =>
    simp only [applyLedgerOp, set_rewritten_commit] at h
    split at h
    · exact absurd h (by simp)
    · cases h
      intro hmem
      rcases (mem_alKeys_insert _ _ _ _).mp hmem with h1 | h1
      · simp_all
      · exact hroot h1
  | setDivergent old_id new_ids =>
    simp only [applyLedgerOp, set_divergent_rewrite] at h
    split at h
    · exact absurd h (by simp)
    · cases h
      intro hmem
      rcases (mem_alKeys_insert _ _ _ _).mp hmem with h1 | h1
      · simp_all
      · exact hroot h1
  | recordAbandoned old_id old_commit =>
    simp only [applyLedgerOp, record_abandoned_commit,
      record_abandoned_commit_with_parents] at h
    split at h
    · exact absurd h (by simp)
    · cases h
      intro hmem
      rcases (mem_alKeys_insert _ _ _ _).mp hmem with h1 | h1
      · simp_all
      · exact hroot h1
  | recordAbandonedWithParents old_id ps =>
    simp only [applyLedgerOp, record_abandoned_commit_with_parents] at h
    split at h
    · exact absurd h (by simp)
    · cases h
      intro hmem
      rcases (mem_alKeys_insert _ _ _ _).mp hmem with h1 | h1
      · simp_all
      · exact hroot h1
  | clearMapping =>
    simp only [applyLedgerOp] at h
    cases h
    simp [alKeys]

theorem applyLedgerOps_root_not_key (store : Store) (ops : List LedgerOp) :
    ∀ (st st' : MRepo), store.root ∉ alKeys st.parentMapping →
    applyLedgerOps store st ops = some st' →
    store.root ∉ alKeys st'.parentMapping := by
  induction ops with
  | nil => intro st st' hroot h; cases h; exact hroot
  | cons op rest ih =>
    intro st st' hroot h
    simp only [applyLedgerOps] at h
    cases hop : applyLedgerOp store st op with
    | none => rw [hop] at h; exact absurd h (by simp)
    | some st1 =>
      rw [hop] at h
      exact ih st1 st' (applyLedgerOp_root_not_key store st op st1 hroot hop) h

/-- C1: For every sequence of `MutableRepo` ledger operations starting from a
state whose ledger does not map the root commit, the root commit id is never a
key of `parent_mapping`; moreover each of `set_rewritten_commit`,
`set_divergent_rewrite`, `record_abandoned_commit` and
`record_abandoned_commit_with_parents` fails fast (assertion, modelled as
`none`) when the old commit id equals the store's root commit id. -/
theorem c1_root_never_ledger_key :
    (∀ (store : Store) (ops : List LedgerOp) (st st' : MRepo),
      store.root ∉ alKeys st.parentMapping →
      applyLedgerOps store st ops = some st' →
      store.root ∉ alKeys st'.parentMapping) ∧
    (∀ (store : Store) (st : MRepo) (new_id : Nat),
      set_rewritten_commit store st store.root new_id = none) ∧
    (∀ (store : Store) (st : MRepo) (new_ids : List Nat),
      set_divergent_rewrite store st store.root new_ids = none) ∧
    (∀ (store : Store) (st : MRepo) (old_commit : CommitData),
      record_abandoned_commit store st store.root old_commit = none) ∧
    (∀ (store : Store) (st : MRepo) (new_parent_ids : List Nat),
      record_abandoned_commit_with_parents store st store.root new_parent_ids = none) := by
  refine ⟨fun store ops st st' h1 h2 =>
      applyLedgerOps_root_not_key store ops st st' h1 h2, ?_, ?_, ?_, ?_⟩
  · intro store st new_id; simp [set_rewritten_commit]
  · intro store st new_ids; simp [set_divergent_rewrite]
  · intro store st old_commit; simp [record_abandoned_commit]
  · intro store st new_parent_ids; simp [record_abandoned_commit_with_parents]

/-- Witness for C1 at a concrete store and operation sequence. -/
theorem c1_root_never_ledger_key_witness :
    ({ root := 0, commits := [] } : Store).root ∉
      alKeys (emptyRepo.parentMapping) ∧
    applyLedgerOps { root := 0, commits := [] } emptyRepo
      [.setRewritten 1 2, .recordAbandonedWithParents 3 [1], .clearMapping,
       .setDivergent 4 [5, 6]] =
      some { emptyRepo with parentMapping := [(4, .Divergent [5, 6])] } ∧
    ({ root := 0, commits := [] } : Store).root ∉
      alKeys ([(4, (.Divergent [5, 6] : Rewrite))]) := by
  refine ⟨by decide, by decide, ?_⟩
  exact (c1_root_never_ledger_key.1 { root := 0, commits := [] }
    [.setRewritten 1 2, .recordAbandonedWithParents 3 [1], .clearMapping,
     .setDivergent 4 [5, 6]] emptyRepo
    { emptyRepo with parentMapping := [(4, .Divergent [5, 6])] }
    (by decide) (by decide))

/-- C10: `set_wc_commit(name, commit_id)` errors with `RewriteRootCommit` iff
`commit_id` is the store's root commit id; in the error case the whole state
(view included) is unchanged; for a non-root commit id it records the
workspace's working-copy commit id (leaving other workspaces and the rest of
the state alone) and returns `Ok`. -/
theorem c10_set_wc_commit_spec (store : Store) (st : MRepo) (name commit_id : Nat) :
    ((set_wc_commit store st name commit_id).2 = .error ⟨⟩ ↔ commit_id = store.root) ∧
    (commit_id = store.root → (set_wc_commit store st name commit_id).1 = st) ∧
    (commit_id ≠ store.root →
      (set_wc_commit store st name commit_id).2 = .ok () ∧
      alLookup (set_wc_commit store st name commit_id).1.wcCommitIds name = some commit_id ∧
      (∀ n, n ≠ name →
        alLookup (set_wc_commit store st name commit_id).1.wcCommitIds n =
          alLookup st.wcCommitIds n) ∧
      (set_wc_commit store st name commit_id).1.parentMapping = st.parentMapping ∧
      (set_wc_commit store st name commit_id).1.headIds = st.headIds ∧
      (set_wc_commit store st name commit_id).1.localBookmarks = st.localBookmarks) := by
  refine ⟨?_, ?_, ?_⟩
  · constructor
    · intro h
      by_contra hne
      simp [set_wc_commit, if_neg hne] at h
    · intro h; simp [set_wc_commit, if_pos h]
  · intro h; simp [set_wc_commit, if_pos h]
  · intro h
    refine ⟨by simp [set_wc_commit, if_neg h], ?_, ?_, ?_, ?_, ?_⟩
    · simp [set_wc_commit, if_neg h, alLookup_insert_self]
    · intro n hn
      simp only [set_wc_commit, if_neg h]
      exact alLookup_insert_ne _ _ _ _ (fun e => hn e.symm)
    · simp [set_wc_commit, if_neg h]
    · simp [set_wc_commit, if_neg h]
    · simp [set_wc_commit, if_neg h]

/-- Witness for C10 at a concrete store, state and commit id. -/
theorem c10_set_wc_commit_spec_witness :
    (set_wc_commit { root := 0, commits := [] } emptyRepo 7 3).2 = .ok () ∧
    alLookup (set_wc_commit { root := 0, commits := [] } emptyRepo 7 3).1.wcCommitIds 7 =
      some 3 := by
  have h := c10_set_wc_commit_spec { root := 0, commits := [] } emptyRepo 7 3
  have h3 := h.2.2 (by decide)
  exact ⟨h3.1, h3.2.1⟩

theorem exists_maximal_of_strict_order (anc : Nat → Nat → Bool)
    (hirr : ∀ a, anc a a = false)
    (htrans : ∀ a b c, anc a b = true → anc b c = true → anc a c = true) :
    ∀ (l : List Nat), l ≠ [] → ∃ a ∈ l, ∀ b ∈ l, anc a b = false := by
  intro l
  induction l with
  | nil => intro h; exact absurd rfl h
  | cons x rest ih =>
    intro _
    rcases Decidable.em (rest = []) with hrest | hrest
    · subst hrest
      refine ⟨x, List.mem_singleton.mpr rfl, ?_⟩
      intro b hb
      rw [List.mem_singleton.mp hb]
      exact hirr x
    · obtain ⟨a, ha, hmax⟩ := ih hrest
      cases hax : anc a x with
      | false =>
        refine ⟨a, List.mem_cons_of_mem x ha, ?_⟩
        intro b hb
        rcases List.mem_cons.mp hb with rfl | hb
        · exact hax
        · exact hmax b hb
      | true =>
        refine ⟨x, List.mem_cons_self x rest, ?_⟩
        intro b hb
        rcases List.mem_cons.mp hb with rfl | hb
        · exact hirr b
        · cases hxb : anc x b with
          | false => rfl
          | true =>
            have : anc a b = true := htrans a x b hax hxb
            rw [hmax b hb] at this
            exact absurd this (by simp)

theorem index_heads_nonempty (anc : Nat → Nat → Bool)
    (hirr : ∀ a, anc a a = false)
    (htrans : ∀ a b c, anc a b = true → anc b c = true → anc a c = true)
    (l : List Nat) (hl : l ≠ []) : index_heads anc l ≠ [] := by
  obtain ⟨a, ha, hmax⟩ := exists_maximal_of_strict_order anc hirr htrans l hl
  intro hempty
  have : a ∈ index_heads anc l := by
    simp only [index_heads, List.mem_filter]
    refine ⟨ha, ?_⟩
    simp only [Bool.not_eq_true', List.any_eq_false]
    intro b hb
    simp [hmax b hb]
  rw [hempty] at this
  exact absurd this (List.not_mem_nil a)

theorem filter_ne_nonempty_of_nodup (l : List Nat) (r : Nat)
    (hnodup : l.Nodup) (hlen : 1 < l.length) :
    l.filter (fun h => h != r) ≠ [] := by
  intro hempty
  match l, hlen with
  | a :: b :: t, _ =>
    have ha : a = r := by
      by_contra hne
      have : a ∈ List.filter (fun h => h != r) (a :: b :: t) :=
        List.mem_filter.mpr ⟨List.mem_cons_self _ _, by simp [hne]⟩
      rw [hempty] at this
      exact absurd this (List.not_mem_nil a)
    have hb : b = r := by
      by_contra hne
      have : b ∈ List.filter (fun h => h != r) (a :: b :: t) :=
        List.mem_filter.mpr ⟨by simp, by simp [hne]⟩
      rw [hempty] at this
      exact absurd this (List.not_mem_nil b)
    have : a ∉ b :: t := (List.nodup_cons.mp hnodup).1
    exact this (by simp [ha, hb])

/-- C5: reading the view runs `enforce_view_invariants` on a dirty view; with
the index's ancestry a strict order and a duplicate-free head set, the result
exists (the final assertion never fires) and is non-empty; an empty head set
becomes `{root}`; a head set with more than one member has the root removed
and is replaced by `index.heads(...)`, after which no remaining head is an
ancestor of another. -/
theorem c5_enforce_view_invariants (store : Store) (anc : Nat → Nat → Bool)
    (heads : List Nat)
    (hirr : ∀ a, anc a a = false)
    (htrans : ∀ a b c, anc a b = true → anc b c = true → anc a c = true)
    (hnodup : heads.Nodup) :
    ∃ out, enforce_view_invariants store anc heads = some out ∧ out ≠ [] ∧
      (heads = [] → out = [store.root]) ∧
      (1 < heads.length →
        out = index_heads anc (heads.filter (fun h => h != store.root)) ∧
        ∀ a ∈ out, ∀ b ∈ out, anc a b = false) := by
  rcases Decidable.em (heads = []) with hempty | hne
  · subst hempty
    exact ⟨[store.root], by simp [enforce_view_invariants], by simp, fun _ => rfl,
      by simp⟩
  · rcases Decidable.em (1 < heads.length) with hlen | hlen
    · have hfne := filter_ne_nonempty_of_nodup heads store.root hnodup hlen
      have hne' := index_heads_nonempty anc hirr htrans _ hfne
      refine ⟨index_heads anc (heads.filter (fun h => h != store.root)), ?_, hne',
        fun h => absurd h hne, fun _ => ⟨rfl, ?_⟩⟩
      · simp [enforce_view_invariants, List.isEmpty_iff, hne, hlen, hne']
      · intro a ha b hb
        have ha' := List.mem_filter.mp ha
        simp only [Bool.not_eq_true', List.any_eq_false] at ha'
        have hb' := (List.mem_filter.mp hb).1
        have hthis := ha'.2 b hb'
        rcases Decidable.em (b = a) with rfl | hba
        · exact hirr _
        · cases hab : anc a b with
          | false => rfl
          | true => simp [hab, hba] at hthis
    · refine ⟨heads, ?_, hne, fun h => absurd h hne, fun h => absurd h hlen⟩
      simp [enforce_view_invariants, List.isEmpty_iff, hne, hlen]

/-- Witness for C5 at a concrete ancestry relation and head set. -/
theorem c5_enforce_view_invariants_witness :
    ∃ out, enforce_view_invariants { root := 0, commits := [] }
        (fun a b => a < b) [0, 3, 2] = some out ∧ out ≠ [] ∧
      ([0, 3, 2] = ([] : List Nat) → out = [0]) ∧
      (1 < [0, 3, 2].length →
        out = index_heads (fun a b => a < b)
          ([0, 3, 2].filter (fun h => h != 0)) ∧
        ∀ a ∈ out, ∀ b ∈ out, (a < b : Bool) = false) := by
  exact c5_enforce_view_invariants { root := 0, commits := [] }
    (fun a b => a < b) [0, 3, 2]
    (fun a => by simp) (fun a b c h1 h2 => by simp_all; omega) (by decide)

theorem contains_eq_false_iff (l : List Nat) (x : Nat) :
    (l.contains x = false) ↔ x ∉ l := by
  rw [show l.contains x = l.elem x from rfl]
  constructor
  · intro h hx
    rw [List.elem_iff.mpr hx] at h
    exact absurd h (by simp)
  · intro h
    cases he : l.elem x with
    | false => rfl
    | true => exact absurd (List.elem_iff.mp he) h

theorem mem_foldl_setInsert (adds : List Nat) :
    ∀ (init : List Nat) (x : Nat),
      x ∈ adds.foldl (fun acc y => setInsert y acc) init ↔ x ∈ init ∨ x ∈ adds := by
  induction adds with
  | nil => intro init x; simp
  | cons a rest ih =>
    intro init x
    simp only [List.foldl_cons]
    rw [ih]
    constructor
    · rintro (h | h)
      · simp only [setInsert] at h
        split at h
        · exact Or.inl h
        · rcases List.mem_cons.mp h with rfl | h
          · exact Or.inr (List.mem_cons_self _ _)
          · exact Or.inl h
      · exact Or.inr (List.mem_cons_of_mem a h)
    · rintro (h | h)
      · left
        simp only [setInsert]
        split
        · exact h
        · exact List.mem_cons_of_mem a h
      · rcases List.mem_cons.mp h with rfl | h
        · left
          simp only [setInsert]
          split
          · next hc => exact List.mem_of_elem_eq_true hc
          · exact List.mem_cons_self x init
        · exact Or.inr h

/-- C6: after `update_heads`, a commit is a view head exactly when it is not a
ledger key and either was a head before or is a parent of some ledger key;
in particular every key of `parent_mapping` is removed and exactly the
commits in `parents(keys) − keys` are added. -/
theorem c6_update_heads (parentsF : Nat → List Nat) (st : MRepo) (x : Nat) :
    x ∈ (update_heads parentsF st).headIds ↔
      (x ∈ st.headIds ∨ ∃ k ∈ alKeys st.parentMapping, x ∈ parentsF k) ∧
        x ∉ alKeys st.parentMapping := by
  simp only [update_heads]
  rw [mem_foldl_setInsert]
  constructor
  · rintro (h | h)
    · have hmf := List.mem_filter.mp h
      refine ⟨Or.inl hmf.1, ?_⟩
      have h2 := hmf.2
      simp only [Bool.not_eq_true'] at h2
      exact (contains_eq_false_iff _ _).mp h2
    · have hmf := List.mem_filter.mp h
      obtain ⟨hmem, hnk⟩ := hmf
      obtain ⟨k, hk, hp⟩ := List.mem_flatMap.mp hmem
      simp only [Bool.not_eq_true'] at hnk
      exact ⟨Or.inr ⟨k, hk, hp⟩, (contains_eq_false_iff _ _).mp hnk⟩
  · rintro ⟨h | h, hnk⟩
    · left
      exact List.mem_filter.mpr ⟨h, by
        simp only [Bool.not_eq_true']
        exact (contains_eq_false_iff _ _).mpr hnk⟩
    · right
      obtain ⟨k, hk, hp⟩ := h
      refine List.mem_filter.mpr ⟨List.mem_flatMap.mpr ⟨k, hk, hp⟩, ?_⟩
      simp only [Bool.not_eq_true']
      exact (contains_eq_false_iff _ _).mpr hnk

theorem entryWeight_cons_le (pred : Rewrite → Bool) (visited : List Nat)
    (id : Nat) (e : Nat × Rewrite) :
    entryWeight pred (id :: visited) e ≤ entryWeight pred visited e := by
  by_cases h : e.1 ∈ visited
  · simp [entryWeight, List.contains_cons, h]
  · by_cases h2 : e.1 = id
    · simp [entryWeight, List.contains_cons, h, h2]
    · simp [entryWeight, List.contains_cons, h, h2]

theorem lookupFiltered_cons (e : Nat × Rewrite) (rest : List (Nat × Rewrite))
    (pred : Rewrite → Bool) (id : Nat) :
    lookupFiltered (e :: rest) pred id =
      if e.1 = id then (if pred e.2 then some e.2 else none)
      else lookupFiltered rest pred id := by
  by_cases h : e.1 = id <;> simp [lookupFiltered, alLookup, h]

theorem pendingWeight_cons_le (pm : List (Nat × Rewrite)) (pred : Rewrite → Bool)
    (visited : List Nat) (id : Nat) :
    pendingWeight pm pred (id :: visited) ≤ pendingWeight pm pred visited :=
  List.sum_le_sum (fun e _ => entryWeight_cons_le pred visited id e)

theorem pendingWeight_expand (pm : List (Nat × Rewrite)) (pred : Rewrite → Bool)
    (visited : List Nat) (id : Nat) (rw : Rewrite)
    (hid : visited.contains id = false)
    (hlook : lookupFiltered pm pred id = some rw) :
    pendingWeight pm pred (id :: visited) + rw.new_parent_ids.length ≤
      pendingWeight pm pred visited := by
  induction pm with
  | nil => simp [lookupFiltered, alLookup] at hlook
  | cons e rest ih =>
    rw [lookupFiltered_cons] at hlook
    by_cases he : e.1 = id
    · rw [if_pos he] at hlook
      have hpred : pred e.2 = true := by
        by_contra hp
        rw [if_neg hp] at hlook
        exact absurd hlook (by simp)
      rw [if_pos hpred] at hlook
      have hrw : rw = e.2 := by
        cases hlook
        rfl
      subst hrw
      simp only [pendingWeight, List.map_cons, List.sum_cons]
      have h1 : entryWeight pred (id :: visited) e = 0 := by
        simp [entryWeight, List.contains_cons, he]
      have h2 : entryWeight pred visited e = e.2.new_parent_ids.length := by
        have hid' : id ∉ visited := (contains_eq_false_iff _ _).mp hid
        simp [entryWeight, he, hid', hpred]
      rw [h1, h2]
      have := pendingWeight_cons_le rest pred visited id
      simp only [pendingWeight] at this
      omega
    · rw [if_neg he] at hlook
      have hrec := ih hlook
      simp only [pendingWeight, List.map_cons, List.sum_cons]
      have heq : entryWeight pred (id :: visited) e = entryWeight pred visited e := by
        simp only [entryWeight, List.contains_cons]
        rw [show (e.1 == id) = false by simpa using he]
        simp
      simp only [pendingWeight] at hrec
      omega

theorem rewriteLoop_ne_outOfFuel (pm : List (Nat × Rewrite)) (pred : Rewrite → Bool) :
    ∀ (fuel : Nat) (tv visited acc : List Nat),
      pendingWeight pm pred visited + tv.length ≤ fuel →
      rewriteLoop pm pred fuel tv visited acc ≠ .outOfFuel := by
  intro fuel
  induction fuel with
  | zero =>
    intro tv visited acc h
    cases tv with
    | nil => simp only [rewriteLoop]; split <;> simp
    | cons id rest => simp at h
  | succ f ih =>
    intro tv visited acc h
    cases tv with
    | nil => simp only [rewriteLoop]; split <;> simp
    | cons id rest =>
      simp only [rewriteLoop]
      by_cases hv : visited.contains id
      · rw [if_pos hv]
        exact ih rest visited acc (by simp at h ⊢; omega)
      · rw [if_neg hv]
        cases hlook : lookupFiltered pm pred id with
        | none =>
          have := pendingWeight_cons_le pm pred visited id
          exact ih rest (id :: visited) (acc ++ [id]) (by simp at h ⊢; omega)
        | some rw =>
          by_cases hemp : rw.new_parent_ids.isEmpty
          · simp [hemp]
          · simp only [hemp, if_false, Bool.false_eq_true]
            have hexp := pendingWeight_expand pm pred visited id rw
              (by simpa using hv) hlook
            have hgoal := ih (rw.new_parent_ids ++ rest) (id :: visited) acc
              (by simp at h ⊢; omega)
            simpa [hemp] using hgoal

theorem lookupFiltered_eq_some (pm : List (Nat × Rewrite)) (pred : Rewrite → Bool)
    (id : Nat) (rw : Rewrite) :
    lookupFiltered pm pred id = some rw ↔
      alLookup pm id = some rw ∧ pred rw = true := by
  simp only [lookupFiltered]
  cases h : alLookup pm id with
  | none => simp
  | some r =>
    show (if pred r = true then some r else none) = some rw ↔
      some r = some rw ∧ pred rw = true
    by_cases hp : pred r
    · rw [if_pos hp]
      constructor
      · rintro heq
        cases heq
        exact ⟨rfl, hp⟩
      · rintro ⟨heq, _⟩
        cases heq
        rfl
    · rw [if_neg hp]
      constructor
      · rintro heq
        exact absurd heq (by simp)
      · rintro ⟨heq, hpr⟩
        cases heq
        exact absurd hpr hp

theorem rewriteLoop_ok_ne_nil (pm : List (Nat × Rewrite)) (pred : Rewrite → Bool) :
    ∀ (fuel : Nat) (tv visited acc : List Nat) (out : List Nat),
      rewriteLoop pm pred fuel tv visited acc = .ok out → out ≠ [] := by
  intro fuel
  induction fuel with
  | zero =>
    intro tv visited acc out h
    cases tv with
    | nil =>
      simp only [rewriteLoop] at h
      split at h
      · exact absurd h (by simp)
      · next hc =>
        cases h
        exact fun hnil => hc (by simp [hnil])
    | cons id rest => exact absurd h (by simp [rewriteLoop])
  | succ f ih =>
    intro tv visited acc out h
    cases tv with
    | nil =>
      simp only [rewriteLoop] at h
      split at h
      · exact absurd h (by simp)
      · next hc =>
        cases h
        exact fun hnil => hc (by simp [hnil])
    | cons id rest =>
      simp only [rewriteLoop] at h
      by_cases hv : visited.contains id
      · rw [if_pos hv] at h
        exact ih rest visited acc out h
      · rw [if_neg hv] at h
        cases hlook : lookupFiltered pm pred id with
        | none =>
          rw [hlook] at h
          exact ih rest (id :: visited) (acc ++ [id]) out h
        | some rw =>
          rw [hlook] at h
          simp only at h
          split at h
          · exact absurd h (by simp)
          · exact ih (rw.new_parent_ids ++ rest) (id :: visited) acc out h

theorem rewriteLoop_ok_nodup (pm : List (Nat × Rewrite)) (pred : Rewrite → Bool) :
    ∀ (fuel : Nat) (tv visited acc : List Nat) (out : List Nat),
      acc.Nodup → (∀ a ∈ acc, a ∈ visited) →
      rewriteLoop pm pred fuel tv visited acc = .ok out → out.Nodup := by
  intro fuel
  induction fuel with
  | zero =>
    intro tv visited acc out hnd hsub h
    cases tv with
    | nil =>
      simp only [rewriteLoop] at h
      split at h
      · exact absurd h (by simp)
      · cases h; exact hnd
    | cons id rest => exact absurd h (by simp [rewriteLoop])
  | succ f ih =>
    intro tv visited acc out hnd hsub h
    cases tv with
    | nil =>
      simp only [rewriteLoop] at h
      split at h
      · exact absurd h (by simp)
      · cases h; exact hnd
    | cons id rest =>
      simp only [rewriteLoop] at h
      by_cases hv : visited.contains id
      · rw [if_pos hv] at h
        exact ih rest visited acc out hnd hsub h
      · rw [if_neg hv] at h
        have hvnot : id ∉ visited := (contains_eq_false_iff _ _).mp (by simpa using hv)
        cases hlook : lookupFiltered pm pred id with
        | none =>
          rw [hlook] at h
          refine ih rest (id :: visited) (acc ++ [id]) out ?_ ?_ h
          · rw [List.nodup_append]
            exact ⟨hnd, List.nodup_singleton id,
              fun a ha hb => hvnot ((List.mem_singleton.mp hb) ▸ hsub a ha)⟩
          · intro a ha
            rcases List.mem_append.mp ha with ha | ha
            · exact List.mem_cons_of_mem id (hsub a ha)
            · rw [List.mem_singleton.mp ha]
              exact List.mem_cons_self id visited
        | some rw =>
          rw [hlook] at h
          simp only at h
          split at h
          · exact absurd h (by simp)
          · exact ih (rw.new_parent_ids ++ rest) (id :: visited) acc out hnd
              (fun a ha => List.mem_cons_of_mem id (hsub a ha)) h

theorem rewriteLoop_ne_assertFail (pm : List (Nat × Rewrite)) (pred : Rewrite → Bool)
    (hne : ∀ k rw, alLookup pm k = some rw → rw.new_parent_ids ≠ [])
    (hacyc : WellFounded (stepRel pm pred)) :
    ∀ (fuel : Nat) (tv visited acc : List Nat),
      (acc = [] → ∀ v ∈ visited, ∃ rw, lookupFiltered pm pred v = some rw ∧
        ∀ r ∈ rw.new_parent_ids, r ∈ visited ∨ r ∈ tv) →
      (acc = [] → visited ≠ [] ∨ tv ≠ []) →
      rewriteLoop pm pred fuel tv visited acc ≠ .assertFail := by
  intro fuel
  induction fuel with
  | zero =>
    intro tv visited acc inv1 inv2 h
    cases tv with
    | nil =>
      simp only [rewriteLoop] at h
      split at h
      · next hc =>
        have hacc : acc = [] := by simpa [List.isEmpty_iff] using hc
        have hvne : visited ≠ [] := by
          rcases inv2 hacc with hv | htv
          · exact hv
          · exact absurd rfl htv
        obtain ⟨v0, hv0⟩ := List.exists_mem_of_ne_nil visited hvne
        obtain ⟨m, hm, hmin⟩ := hacyc.has_min {v | v ∈ visited} ⟨v0, hv0⟩
        obtain ⟨rw, hrw, hrepl⟩ := inv1 hacc m hm
        have hnps := hne m rw ((lookupFiltered_eq_some pm pred m rw).mp hrw).1
        obtain ⟨r0, hr0⟩ := List.exists_mem_of_ne_nil _ hnps
        rcases hrepl r0 hr0 with hrv | hrv
        · exact hmin r0 hrv ⟨rw, hrw, hr0⟩
        · exact absurd hrv (List.not_mem_nil r0)
      · exact absurd h (by simp)
    | cons id rest => exact absurd h (by simp [rewriteLoop])
  | succ f ih =>
    intro tv visited acc inv1 inv2 h
    cases tv with
    | nil =>
      simp only [rewriteLoop] at h
      split at h
      · next hc =>
        have hacc : acc = [] := by simpa [List.isEmpty_iff] using hc
        have hvne : visited ≠ [] := by
          rcases inv2 hacc with hv | htv
          · exact hv
          · exact absurd rfl htv
        obtain ⟨v0, hv0⟩ := List.exists_mem_of_ne_nil visited hvne
        obtain ⟨m, hm, hmin⟩ := hacyc.has_min {v | v ∈ visited} ⟨v0, hv0⟩
        obtain ⟨rw, hrw, hrepl⟩ := inv1 hacc m hm
        have hnps := hne m rw ((lookupFiltered_eq_some pm pred m rw).mp hrw).1
        obtain ⟨r0, hr0⟩ := List.exists_mem_of_ne_nil _ hnps
        rcases hrepl r0 hr0 with hrv | hrv
        · exact hmin r0 hrv ⟨rw, hrw, hr0⟩
        · exact absurd hrv (List.not_mem_nil r0)
      · exact absurd h (by simp)
    | cons id rest =>
      simp only [rewriteLoop] at h
      by_cases hv : visited.contains id
      · rw [if_pos hv] at h
        have hvmem : id ∈ visited := by
          have := hv
          cases hvv : visited.contains id with
          | false => rw [hvv] at this; exact absurd this (by simp)
          | true => exact List.elem_iff.mp hvv
        refine ih rest visited acc ?_ (fun hacc => Or.inl (fun hnil => by
          rw [hnil] at hvmem; exact absurd hvmem (List.not_mem_nil id))) h
        intro hacc v hvv
        obtain ⟨rw, hrw, hrepl⟩ := inv1 hacc v hvv
        refine ⟨rw, hrw, fun r hr => ?_⟩
        rcases hrepl r hr with hrv | hrv
        · exact Or.inl hrv
        · rcases List.mem_cons.mp hrv with rfl | hrv
          · exact Or.inl hvmem
          · exact Or.inr hrv
      · rw [if_neg hv] at h
        cases hlook : lookupFiltered pm pred id with
        | none =>
          rw [hlook] at h
          exact ih rest (id :: visited) (acc ++ [id])
            (fun hacc => absurd hacc (by simp))
            (fun hacc => absurd hacc (by simp)) h
        | some rw =>
          rw [hlook] at h
          simp only at h
          split at h
          · next hemp =>
            have := hne id rw ((lookupFiltered_eq_some pm pred id rw).mp hlook).1
            exact this (by simpa [List.isEmpty_iff] using hemp)
          · refine ih (rw.new_parent_ids ++ rest) (id :: visited) acc ?_
              (fun _ => Or.inl (by simp)) h
            intro hacc v hvv
            rcases List.mem_cons.mp hvv with rfl | hvv
            · exact ⟨rw, hlook, fun r hr => Or.inr (List.mem_append_left rest hr)⟩
            · obtain ⟨rw', hrw', hrepl⟩ := inv1 hacc v hvv
              refine ⟨rw', hrw', fun r hr => ?_⟩
              rcases hrepl r hr with hrv | hrv
              · exact Or.inl (List.mem_cons_of_mem id hrv)
              · rcases List.mem_cons.mp hrv with rfl | hrv
                · exact Or.inl (List.mem_cons_self _ _)
                · exact Or.inr (List.mem_append_right _ hrv)

theorem rewriteLoop_all_unmapped (pm : List (Nat × Rewrite)) (pred : Rewrite → Bool) :
    ∀ (tv : List Nat) (fuel : Nat) (visited acc : List Nat),
      tv.length ≤ fuel →
      (∀ id ∈ tv, lookupFiltered pm pred id = none) →
      rewriteLoop pm pred fuel tv visited acc =
        (if (acc ++ dedupFrom visited tv).isEmpty then .assertFail
         else .ok (acc ++ dedupFrom visited tv)) := by
  intro tv
  induction tv with
  | nil =>
    intro fuel visited acc _ _
    cases fuel <;> simp [rewriteLoop, dedupFrom]
  | cons id rest ih =>
    intro fuel visited acc hfuel hall
    cases fuel with
    | zero => simp at hfuel
    | succ f =>
      simp only [rewriteLoop]
      by_cases hv : visited.contains id
      · rw [if_pos hv]
        rw [ih f visited acc (by simp at hfuel ⊢; omega)
          (fun i hi => hall i (List.mem_cons_of_mem id hi))]
        simp only [dedupFrom, hv, if_pos]
      · rw [if_neg hv]
        rw [hall id (List.mem_cons_self _ _)]
        rw [ih f (id :: visited) (acc ++ [id]) (by simp at hfuel ⊢; omega)
          (fun i hi => hall i (List.mem_cons_of_mem id hi))]
        have hd : dedupFrom visited (id :: rest) = id :: dedupFrom (id :: visited) rest := by
          simp only [dedupFrom]
          rw [if_neg hv]
        rw [hd]
        simp [List.append_assoc]

/-- When every input id is unmapped (or filtered out), `rewritten_ids_with`
returns the input with duplicates suppressed, preserving first-occurrence
order. -/
theorem rewritten_ids_with_unmapped (pm : List (Nat × Rewrite)) (pred : Rewrite → Bool)
    (old_ids : List Nat) (hP : old_ids ≠ [])
    (hall : ∀ id ∈ old_ids, lookupFiltered pm pred id = none) :
    rewritten_ids_with pm pred old_ids = .ok (dedupFrom [] old_ids) := by
  have hdne : dedupFrom [] old_ids ≠ [] := by
    cases old_ids with
    | nil => exact absurd rfl hP
    | cons id rest =>
      simp only [dedupFrom]
      rw [if_neg (by simp)]
      simp
  simp only [rewritten_ids_with]
  rw [if_neg (by simpa [List.isEmpty_iff] using hP)]
  rw [rewriteLoop_all_unmapped pm pred old_ids _ [] [] (by omega) hall]
  simp only [List.nil_append]
  rw [if_neg (by simpa [List.isEmpty_iff] using hdne)]

/-- Under the C3 preconditions `rewritten_ids_with` succeeds: every assertion
passes and the output is a non-empty duplicate-free list. -/
theorem rewritten_ids_with_ok (pm : List (Nat × Rewrite)) (pred : Rewrite → Bool)
    (old_ids : List Nat) (hP : old_ids ≠ [])
    (hne : ∀ k rw, alLookup pm k = some rw → rw.new_parent_ids ≠ [])
    (hacyc : WellFounded (stepRel pm pred)) :
    ∃ out, rewritten_ids_with pm pred old_ids = .ok out ∧ out ≠ [] ∧ out.Nodup := by
  have hfuel := rewriteLoop_ne_outOfFuel pm pred
    (pendingWeight pm pred [] + old_ids.length) old_ids [] [] (le_refl _)
  have hassert := rewriteLoop_ne_assertFail pm pred hne hacyc
    (pendingWeight pm pred [] + old_ids.length) old_ids [] []
    (fun _ v hv => absurd hv (List.not_mem_nil v))
    (fun _ => Or.inr hP)
  cases hres : rewriteLoop pm pred (pendingWeight pm pred [] + old_ids.length)
      old_ids [] [] with
  | ok out =>
    refine ⟨out, ?_, rewriteLoop_ok_ne_nil pm pred _ _ _ _ _ hres,
      rewriteLoop_ok_nodup pm pred _ _ _ _ _ (by simp) (by simp) hres⟩
    simp only [rewritten_ids_with]
    rw [if_neg (by simpa [List.isEmpty_iff] using hP)]
    exact hres
  | assertFail => exact absurd hres hassert
  | outOfFuel => exact absurd hres hfuel

/-- C3: for a non-empty parent list and an acyclic ledger with no empty
replacement lists, `new_parents` succeeds (none of the three internal
assertions fires) with a non-empty duplicate-free output, and when every
input id is unreplaced the output is exactly the stable deduplication of the
input (order of first occurrence preserved). -/
theorem c3_new_parents_ok (pm : List (Nat × Rewrite)) (old_ids : List Nat)
    (hP : old_ids ≠ [])
    (hne : ∀ k rw, alLookup pm k = some rw → rw.new_parent_ids ≠ [])
    (hacyc : WellFounded (stepRel pm (fun rewrite => !(rewrite.is_divergent)))) :
    (∃ out, new_parents pm old_ids = .ok out ∧ out ≠ [] ∧ out.Nodup) ∧
    ((∀ id ∈ old_ids,
        lookupFiltered pm (fun rewrite => !(rewrite.is_divergent)) id = none) →
      new_parents pm old_ids = .ok (dedupFrom [] old_ids)) := by
  constructor
  · exact rewritten_ids_with_ok pm _ old_ids hP hne hacyc
  · intro hall
    exact rewritten_ids_with_unmapped pm _ old_ids hP hall

/-- Witness for C3 at a concrete ledger `{1 ↦ Rewritten 2}` and parents
`[1, 3]`. -/
theorem c3_new_parents_ok_witness :
    ∃ out, new_parents [(1, Rewrite.Rewritten 2)] [1, 3] = .ok out ∧
      out ≠ [] ∧ out.Nodup := by
  have hne : ∀ k rw, alLookup [(1, Rewrite.Rewritten 2)] k = some rw →
      rw.new_parent_ids ≠ [] := by
    intro k rw h
    simp only [alLookup] at h
    split at h
    · cases h; simp [Rewrite.new_parent_ids]
    · exact absurd h (by simp)
  have hacyc : WellFounded
      (stepRel [(1, Rewrite.Rewritten 2)] (fun rewrite => !(rewrite.is_divergent))) := by
    have hsub : Subrelation
        (stepRel [(1, Rewrite.Rewritten 2)] (fun rewrite => !(rewrite.is_divergent)))
        (InvImage (· < ·) (fun n => 3 - n)) := by
      intro b a hba
      obtain ⟨rw, hl, hb⟩ := hba
      rw [lookupFiltered_cons] at hl
      by_cases ha : a = 1
      · rw [if_pos (by simpa using ha.symm)] at hl
        simp only [Rewrite.is_divergent] at hl
        rw [if_pos (by simp)] at hl
        cases hl
        simp only [Rewrite.new_parent_ids, List.mem_singleton] at hb
        subst hb
        subst ha
        show (3 - 2) < (3 - 1)
        decide
      · rw [if_neg (by simpa using fun h => ha h.symm)] at hl
        simp [lookupFiltered, alLookup] at hl
    exact Subrelation.wf hsub (InvImage.wf _ Nat.lt_wfRel.wf)
  exact (c3_new_parents_ok [(1, Rewrite.Rewritten 2)] [1, 3] (by decide) hne hacyc).1

theorem rewriteLoop_keeps_unmapped (pm : List (Nat × Rewrite)) (pred : Rewrite → Bool)
    (d : Nat) (hd : lookupFiltered pm pred d = none) :
    ∀ (fuel : Nat) (tv visited acc out : List Nat),
      (d ∈ acc ∨ (d ∈ tv ∧ d ∉ visited)) →
      rewriteLoop pm pred fuel tv visited acc = .ok out → d ∈ out := by
  intro fuel
  induction fuel with
  | zero =>
    intro tv visited acc out hin h
    cases tv with
    | nil =>
      simp only [rewriteLoop] at h
      split at h
      · exact absurd h (by simp)
      · cases h
        rcases hin with hin | ⟨hin, _⟩
        · exact hin
        · exact absurd hin (List.not_mem_nil d)
    | cons id rest => exact absurd h (by simp [rewriteLoop])
  | succ f ih =>
    intro tv visited acc out hin h
    cases tv with
    | nil =>
      simp only [rewriteLoop] at h
      split at h
      · exact absurd h (by simp)
      · cases h
        rcases hin with hin | ⟨hin, _⟩
        · exact hin
        · exact absurd hin (List.not_mem_nil d)
    | cons id rest =>
      simp only [rewriteLoop] at h
      by_cases hv : visited.contains id
      · rw [if_pos hv] at h
        have hvmem : id ∈ visited := List.elem_iff.mp hv
        refine ih rest visited acc out ?_ h
        rcases hin with hin | ⟨hin, hnv⟩
        · exact Or.inl hin
        · rcases List.mem_cons.mp hin with rfl | hin
          · exact absurd hvmem hnv
          · exact Or.inr ⟨hin, hnv⟩
      · rw [if_neg hv] at h
        cases hlook : lookupFiltered pm pred id with
        | none =>
          rw [hlook] at h
          refine ih rest (id :: visited) (acc ++ [id]) out ?_ h
          rcases hin with hin | ⟨hin, hnv⟩
          · exact Or.inl (List.mem_append_left _ hin)
          · by_cases hdi : d = id
            · exact Or.inl (List.mem_append_right _ (by simp [hdi]))
            · rcases List.mem_cons.mp hin with heq | hin2
              · exact absurd heq hdi
              · refine Or.inr ⟨hin2, fun hmem => ?_⟩
                rcases List.mem_cons.mp hmem with heq | hmem2
                · exact hdi heq
                · exact hnv hmem2
        | some rw =>
          rw [hlook] at h
          simp only at h
          split at h
          · exact absurd h (by simp)
          · refine ih (rw.new_parent_ids ++ rest) (id :: visited) acc out ?_ h
            rcases hin with hin | ⟨hin, hnv⟩
            · exact Or.inl hin
            · have hdne : d ≠ id := by
                intro heq
                rw [heq, hlook] at hd
                exact absurd hd (by simp)
              rcases List.mem_cons.mp hin with heq | hin
              · exact absurd heq hdne
              · refine Or.inr ⟨List.mem_append_right _ hin, fun hmem => ?_⟩
                rcases List.mem_cons.mp hmem with heq | hmem
                · exact hdne heq
                · exact hnv hmem

/-- C4: a `Divergent` ledger entry is treated as unmapped by `new_parents`:
a divergently rewritten id is emitted unchanged in the output whenever it
occurs among the parents, and in particular `new_parents([d]) = [d]`, so
descendants of a divergently rewritten commit keep pointing at the
original. -/
theorem c4_divergent_opaque (pm : List (Nat × Rewrite)) (d : Nat) (l : List Nat)
    (hd : alLookup pm d = some (.Divergent l)) :
    new_parents pm [d] = .ok [d] ∧
    (∀ old_ids out, d ∈ old_ids → new_parents pm old_ids = .ok out → d ∈ out) := by
  have hdf : lookupFiltered pm (fun rewrite => !(rewrite.is_divergent)) d = none := by
    simp [lookupFiltered, hd, Rewrite.is_divergent]
  constructor
  · have := rewritten_ids_with_unmapped pm (fun rewrite => !(rewrite.is_divergent))
      [d] (by simp) (by intro i hi; rw [List.mem_singleton.mp hi]; exact hdf)
    simpa [new_parents, dedupFrom] using this
  · intro old_ids out hmem hok
    simp only [new_parents, rewritten_ids_with] at hok
    split at hok
    · exact absurd hok (by simp)
    · exact rewriteLoop_keeps_unmapped pm _ d hdf _ old_ids [] [] out
        (Or.inr ⟨hmem, List.not_mem_nil d⟩) hok

/-- Witness for C4 at the concrete ledger `{2 ↦ Divergent [3, 4]}`. -/
theorem c4_divergent_opaque_witness :
    new_parents [(2, Rewrite.Divergent [3, 4])] [2] = .ok [2] :=
  ( c4_divergent_opaque [(2, Rewrite.Divergent [3, 4])] 2 [3, 4] (by decide)).1

/-- C7: `update_local_bookmarks` processes exactly the (bookmark, added id)
pairs whose id is a key of the resolved rewrite map; for each such pair the
bookmark is 3-way merged against base `normal(old)` with `absent()` when
`delete_abandoned_bookmarks` holds and the ledger entry is `Abandoned`, and
otherwise with the ref target interleaving the new ids with `old`
(`new1, old, new2, old, .., newk`); with a single changed branch the
bookmark's stored value is exactly that merge. -/
theorem c7_update_local_bookmarks
    (mrt : RefTarget → RefTarget → RefTarget → RefTarget) (st : MRepo)
    (rewrite_mapping : List (Nat × List Nat)) (options : RewriteRefsOptions)
    (name old : Nat) (new_ids : List Nat) :
    ((name, old, new_ids) ∈ changed_branches st rewrite_mapping ↔
      ∃ target, (name, target) ∈ st.localBookmarks ∧ old ∈ target.added_ids ∧
        alLookup rewrite_mapping old = some new_ids) ∧
    (should_delete st.parentMapping options old = true ↔
      options.delete_abandoned_bookmarks = true ∧
        ∃ ps, alLookup st.parentMapping old = some (.Abandoned ps)) ∧
    (should_delete st.parentMapping options old = true →
      bookmark_merge_args st.parentMapping options (name, old, new_ids) =
        (name, RefTarget.normal old, RefTarget.absent)) ∧
    (should_delete st.parentMapping options old = false →
      bookmark_merge_args st.parentMapping options (name, old, new_ids) =
        (name, RefTarget.normal old, (intersperse new_ids old).map some)) ∧
    (changed_branches st rewrite_mapping = [(name, old, new_ids)] →
      alLookup (update_local_bookmarks mrt st rewrite_mapping options).localBookmarks
          name =
        some (mrt ((alLookup st.localBookmarks name).getD RefTarget.absent)
          (RefTarget.normal old)
          (if should_delete st.parentMapping options old then RefTarget.absent
           else (intersperse new_ids old).map some))) := by
  refine ⟨?_, ?_, ?_, ?_, ?_⟩
  · constructor
    · intro h
      obtain ⟨nt, hnt, hmem⟩ := List.mem_flatMap.mp h
      obtain ⟨id, hid, heq⟩ := List.mem_filterMap.mp hmem
      cases hlook : alLookup rewrite_mapping id with
      | none => rw [hlook] at heq; exact absurd heq (by simp)
      | some nids =>
        rw [hlook] at heq
        simp only [Option.some.injEq, Prod.mk.injEq] at heq
        obtain ⟨h1, h2, h3⟩ := heq
        refine ⟨nt.2, ?_, h2 ▸ hid, h2 ▸ h3 ▸ hlook⟩
        rw [← h1]
        exact hnt
    · rintro ⟨target, htarget, hold, hlook⟩
      refine List.mem_flatMap.mpr ⟨(name, target), htarget, ?_⟩
      refine List.mem_filterMap.mpr ⟨old, hold, ?_⟩
      rw [hlook]
  · simp only [should_delete, Bool.and_eq_true]
    constructor
    · rintro ⟨h1, h2⟩
      refine ⟨h1, ?_⟩
      cases hlook : alLookup st.parentMapping old with
      | none => rw [hlook] at h2; exact absurd h2 (by simp)
      | some rw =>
        cases rw with
        | Rewritten n => rw [hlook] at h2; exact absurd h2 (by simp)
        | Divergent ns => rw [hlook] at h2; exact absurd h2 (by simp)
        | Abandoned ps => exact ⟨ps, rfl⟩
    · rintro ⟨h1, ps, h2⟩
      exact ⟨h1, by rw [h2]⟩
  · intro h
    simp [bookmark_merge_args, h]
  · intro h
    simp [bookmark_merge_args, h]
  · intro h
    simp only [update_local_bookmarks, h, List.map_cons, List.map_nil,
      List.foldl_cons, List.foldl_nil, bookmark_merge_args]
    by_cases hsd : should_delete st.parentMapping options old
    · simp [merge_local_bookmark, set_local_bookmark_target, alLookup_insert_self, hsd]
    · simp [merge_local_bookmark, set_local_bookmark_target, alLookup_insert_self, hsd]

/-- Witness for C7 at a concrete state with one bookmark on a rewritten
commit. -/
theorem c7_update_local_bookmarks_witness :
    (changed_branches
        { emptyRepo with localBookmarks := [(9, RefTarget.normal 5)] }
        [(5, [6, 7])] = [(9, 5, [6, 7])]) ∧
    alLookup (update_local_bookmarks (fun _ _ other => other)
        { emptyRepo with localBookmarks := [(9, RefTarget.normal 5)] }
        [(5, [6, 7])] { delete_abandoned_bookmarks := false }).localBookmarks 9 =
      some ((intersperse [6, 7] 5).map some) := by
  constructor
  · decide
  · have h := (c7_update_local_bookmarks (fun _ _ other => other)
      { emptyRepo with localBookmarks := [(9, RefTarget.normal 5)] }
      [(5, [6, 7])] { delete_abandoned_bookmarks := false } 9 5 [6, 7]).2.2.2.2
      (by decide)
    simpa using h

theorem alKeys_subset_insert {α : Type} (l : List (Nat × α)) (k : Nat) (v : α)
    (a : Nat) (h : a ∈ alKeys l) : a ∈ alKeys (alInsert k v l) :=
  (mem_alKeys_insert l k a v).mpr (Or.inr h)

theorem set_rewritten_commit_keys (store : Store) (st : MRepo) (old_id new_id : Nat)
    (st' : MRepo) (h : set_rewritten_commit store st old_id new_id = some st') :
    ∀ k ∈ alKeys st.parentMapping, k ∈ alKeys st'.parentMapping := by
  simp only [set_rewritten_commit] at h
  split at h
  · exact absurd h (by simp)
  · cases h
    exact fun k hk => alKeys_subset_insert _ _ _ k hk

theorem set_divergent_rewrite_keys (store : Store) (st : MRepo) (old_id : Nat)
    (new_ids : List Nat) (st' : MRepo)
    (h : set_divergent_rewrite store st old_id new_ids = some st') :
    ∀ k ∈ alKeys st.parentMapping, k ∈ alKeys st'.parentMapping := by
  simp only [set_divergent_rewrite] at h
  split at h
  · exact absurd h (by simp)
  · cases h
    exact fun k hk => alKeys_subset_insert _ _ _ k hk

theorem record_abandoned_commit_with_parents_keys (store : Store) (st : MRepo)
    (old_id : Nat) (ps : List Nat) (st' : MRepo)
    (h : record_abandoned_commit_with_parents store st old_id ps = some st') :
    ∀ k ∈ alKeys st.parentMapping, k ∈ alKeys st'.parentMapping := by
  simp only [record_abandoned_commit_with_parents] at h
  split at h
  · exact absurd h (by simp)
  · cases h
    exact fun k hk => alKeys_subset_insert _ _ _ k hk

theorem record_abandoned_commit_keys (store : Store) (st : MRepo) (old_id : Nat)
    (c : CommitData) (st' : MRepo)
    (h : record_abandoned_commit store st old_id c = some st') :
    ∀ k ∈ alKeys st.parentMapping, k ∈ alKeys st'.parentMapping := by
  simp only [record_abandoned_commit] at h
  split at h
  · exact absurd h (by simp)
  · exact record_abandoned_commit_with_parents_keys store st old_id c.parents st' h

theorem apply_cb_action_keys (store : Store) (st : MRepo) (old_id : Nat)
    (nps : List Nat) (a : CbAction) (st' : MRepo)
    (h : apply_cb_action store st old_id nps a = some st') :
    ∀ k ∈ alKeys st.parentMapping, k ∈ alKeys st'.parentMapping := by
  cases a with
  | keep => cases h; exact fun k hk => hk
  | abandon => exact record_abandoned_commit_with_parents_keys store st old_id nps st' h
  | write nid => exact set_rewritten_commit_keys store st old_id nid st' h

theorem set_wc_commit_parentMapping (store : Store) (st : MRepo) (name cid : Nat) :
    (set_wc_commit store st name cid).1.parentMapping = st.parentMapping := by
  by_cases h : cid = store.root <;> simp [set_wc_commit, h]

theorem add_head_parentMapping (st : MRepo) (cid : Nat) (cdata : CommitData) :
    (add_head st cid cdata).parentMapping = st.parentMapping := by
  unfold add_head
  split <;> rfl

theorem maybe_abandon_wc_commit_keys (store : Store) (discardable : Nat → Bool)
    (st : MRepo) (name : Nat) (st' : MRepo)
    (h : maybe_abandon_wc_commit store discardable st name = some st') :
    ∀ k ∈ alKeys st.parentMapping, k ∈ alKeys st'.parentMapping := by
  simp only [maybe_abandon_wc_commit] at h
  split at h
  · cases h; exact fun k hk => hk
  · split at h
    · exact absurd h (by simp)
    · split at h
      · exact record_abandoned_commit_keys store st _ _ st' h
      · cases h; exact fun k hk => hk

theorem edit_keys (store : Store) (discardable : Nat → Bool) (st : MRepo)
    (name cid : Nat) (cdata : CommitData) (st' : MRepo)
    (h : edit store discardable st name cid cdata = some st') :
    ∀ k ∈ alKeys st.parentMapping, k ∈ alKeys st'.parentMapping := by
  simp only [edit] at h
  split at h
  · exact absurd h (by simp)
  · rename_i st1 hma
    split at h
    · cases h
      intro k hk
      have h1 := maybe_abandon_wc_commit_keys store discardable st name st1 hma
      rw [set_wc_commit_parentMapping, add_head_parentMapping]
      exact h1 k hk
    · exact absurd h (by simp)

theorem update_wc_commits_loop_keys (store : Store) (mergeTrees : List Nat → Nat)
    (discardable : Nat → Bool) :
    ∀ (entries : List (Nat × Nat × List Nat)) (recreated : List (Nat × Nat))
      (st st' : MRepo),
      update_wc_commits_loop store mergeTrees discardable entries recreated st = some st' →
      ∀ k ∈ alKeys st.parentMapping, k ∈ alKeys st'.parentMapping := by
  intro entries
  induction entries with
  | nil =>
    intro recreated st st' h
    cases h
    exact fun k hk => hk
  | cons e rest ih =>
    intro recreated st st' h
    obtain ⟨name, old, news⟩ := e
    simp only [update_wc_commits_loop] at h
    split at h
    · split at h
      · exact absurd h (by simp)
      · split at h
        · exact absurd h (by simp)
        · split at h
          · exact absurd h (by simp)
          · rename_i st1 hedit
            exact fun k hk => ih recreated st1 st' h k
              (edit_keys store discardable st name _ _ st1 hedit k hk)
    · split at h
      · split at h
        · exact absurd h (by simp)
        · split at h
          · exact absurd h (by simp)
          · rename_i st1 hedit
            exact fun k hk => ih recreated st1 st' h k
              (edit_keys store discardable st name _ _ st1 hedit k hk)
      · split at h
        · split at h
          · exact absurd h (by simp)
          · rename_i st1 hedit
            exact fun k hk =>
              ih (alInsert old (write_new_commit st news (mergeTrees news)).1 recreated)
                st1 st' h k
                (edit_keys store discardable (write_new_commit st news (mergeTrees news)).2
                  name _ _ st1 hedit k hk)
        · exact absurd h (by simp)

theorem foldl_merge_local_bookmark_parentMapping
    (mrt : RefTarget → RefTarget → RefTarget → RefTarget) :
    ∀ (calls : List (Nat × RefTarget × RefTarget)) (st : MRepo),
      (calls.foldl (fun s a => merge_local_bookmark mrt s a.1 a.2.1 a.2.2) st).parentMapping =
        st.parentMapping := by
  intro calls
  induction calls with
  | nil => intro st; rfl
  | cons c rest ih =>
    intro st
    simp only [List.foldl_cons]
    rw [ih]
    rfl

theorem update_local_bookmarks_parentMapping
    (mrt : RefTarget → RefTarget → RefTarget → RefTarget) (st : MRepo)
    (rewrite_mapping : List (Nat × List Nat)) (options : RewriteRefsOptions) :
    (update_local_bookmarks mrt st rewrite_mapping options).parentMapping =
      st.parentMapping :=
  foldl_merge_local_bookmark_parentMapping mrt _ st

theorem update_heads_parentMapping (parentsF : Nat → List Nat) (st : MRepo) :
    (update_heads parentsF st).parentMapping = st.parentMapping := rfl

theorem update_rewritten_references_keys
    (mrt : RefTarget → RefTarget → RefTarget → RefTarget) (store : Store)
    (mergeTrees : List Nat → Nat) (discardable : Nat → Bool)
    (parentsF : Nat → List Nat) (options : RewriteRefsOptions) (st st' : MRepo)
    (h : update_rewritten_references mrt store mergeTrees discardable parentsF
        options st = some st') :
    ∀ k ∈ alKeys st.parentMapping, k ∈ alKeys st'.parentMapping := by
  simp only [update_rewritten_references, update_all_references] at h
  cases hres : resolve_rewrite_mapping st.parentMapping with
  | none => rw [hres] at h; exact absurd h (by simp)
  | some M =>
    rw [hres] at h
    simp only at h
    cases hwc : update_wc_commits store mergeTrees discardable M
        (update_local_bookmarks mrt st M options) with
    | none => rw [hwc] at h; exact absurd h (by simp)
    | some st1 =>
      rw [hwc] at h
      cases h
      intro k hk
      rw [update_heads_parentMapping]
      refine update_wc_commits_loop_keys store mergeTrees discardable _ _ _ _ hwc k ?_
      rw [update_local_bookmarks_parentMapping]
      exact hk

theorem transform_commits_loop_keys (store : Store)
    (cb : Nat → CommitData → List Nat → CbAction)
    (new_parents_map : List (Nat × List Nat)) :
    ∀ (commits : List (Nat × CommitData)) (st st' : MRepo),
      transform_commits_loop store cb new_parents_map commits st = some st' →
      ∀ k ∈ alKeys st.parentMapping, k ∈ alKeys st'.parentMapping := by
  intro commits
  induction commits with
  | nil =>
    intro st st' h
    cases h
    exact fun k hk => hk
  | cons e rest ih =>
    intro st st' h
    obtain ⟨id, c⟩ := e
    simp only [transform_commits_loop] at h
    cases hnp : new_parents st.parentMapping
        ((alLookup new_parents_map id).getD c.parents) with
    | ok nps =>
      rw [hnp] at h
      simp only at h
      cases hact : apply_cb_action store st id nps (cb id c nps) with
      | none => rw [hact] at h; exact absurd h (by simp)
      | some st1 =>
        rw [hact] at h
        intro k hk
        exact ih st1 st' h k (apply_cb_action_keys store st id nps _ st1 hact k hk)
    | assertFail => rw [hnp] at h; exact absurd h (by simp)
    | outOfFuel => rw [hnp] at h; exact absurd h (by simp)

theorem transform_commits_keys
    (mrt : RefTarget → RefTarget → RefTarget → RefTarget) (store : Store)
    (mergeTrees : List Nat → Nat) (discardable : Nat → Bool)
    (parentsF : Nat → List Nat) (options : RewriteRefsOptions)
    (cb : Nat → CommitData → List Nat → CbAction)
    (commits : List (Nat × CommitData)) (new_parents_map : List (Nat × List Nat))
    (st st' : MRepo)
    (h : transform_commits mrt store mergeTrees discardable parentsF options cb
        commits new_parents_map st = some st') :
    ∀ k ∈ alKeys st.parentMapping, k ∈ alKeys st'.parentMapping := by
  simp only [transform_commits] at h
  cases hloop : transform_commits_loop store cb new_parents_map commits st with
  | none => rw [hloop] at h; exact absurd h (by simp)
  | some st1 =>
    rw [hloop] at h
    intro k hk
    exact update_rewritten_references_keys mrt store mergeTrees discardable parentsF
      options st1 st' h k
      (transform_commits_loop_keys store cb new_parents_map commits st st1 hloop k hk)

/-- C2: after `rebase_or_reparent_descendants_with_options` returns
successfully — hence after `rebase_descendants` and the other wrappers —
`parent_mapping` is empty; and this family is the only modelled code path
that clears it: every other ledger-touching operation (the four recording
entry points, `transform_commits`, and `update_rewritten_references`) only
preserves or extends the set of ledger keys. -/
theorem c2_rebase_descendants_clears_parent_mapping :
    (∀ (mrt : RefTarget → RefTarget → RefTarget → RefTarget) (store : Store)
       (mergeTrees : List Nat → Nat) (discardable : Nat → Bool)
       (parentsF : Nat → List Nat) (options : RebaseOptions)
       (descendants : List (Nat × CommitData)) (should_restore : Nat → Bool)
       (reparented : Nat → List Nat → Nat) (outcome : Nat → List Nat → CbAction)
       (st st' : MRepo),
      rebase_or_reparent_descendants_with_options mrt store mergeTrees discardable
          parentsF options descendants should_restore reparented outcome st =
        some st' →
      st'.parentMapping = []) ∧
    (∀ (mrt : RefTarget → RefTarget → RefTarget → RefTarget) (store : Store)
       (mergeTrees : List Nat → Nat) (discardable : Nat → Bool)
       (parentsF : Nat → List Nat) (descendants : List (Nat × CommitData))
       (reparented : Nat → List Nat → Nat) (outcome : Nat → List Nat → CbAction)
       (st st' : MRepo),
      rebase_descendants mrt store mergeTrees discardable parentsF descendants
          reparented outcome st = some st' →
      st'.parentMapping = []) ∧
    (∀ (store : Store) (st : MRepo) (old_id new_id : Nat) (st' : MRepo),
      set_rewritten_commit store st old_id new_id = some st' →
      ∀ k ∈ alKeys st.parentMapping, k ∈ alKeys st'.parentMapping) ∧
    (∀ (store : Store) (st : MRepo) (old_id : Nat) (new_ids : List Nat) (st' : MRepo),
      set_divergent_rewrite store st old_id new_ids = some st' →
      ∀ k ∈ alKeys st.parentMapping, k ∈ alKeys st'.parentMapping) ∧
    (∀ (store : Store) (st : MRepo) (old_id : Nat) (c : CommitData) (st' : MRepo),
      record_abandoned_commit store st old_id c = some st' →
      ∀ k ∈ alKeys st.parentMapping, k ∈ alKeys st'.parentMapping) ∧
    (∀ (store : Store) (st : MRepo) (old_id : Nat) (ps : List Nat) (st' : MRepo),
      record_abandoned_commit_with_parents store st old_id ps = some st' →
      ∀ k ∈ alKeys st.parentMapping, k ∈ alKeys st'.parentMapping) ∧
    (∀ (mrt : RefTarget → RefTarget → RefTarget → RefTarget) (store : Store)
       (mergeTrees : List Nat → Nat) (discardable : Nat → Bool)
       (parentsF : Nat → List Nat) (options : RewriteRefsOptions)
       (cb : Nat → CommitData → List Nat → CbAction)
       (commits : List (Nat × CommitData)) (new_parents_map : List (Nat × List Nat))
       (st st' : MRepo),
      transform_commits mrt store mergeTrees discardable parentsF options cb
          commits new_parents_map st = some st' →
      ∀ k ∈ alKeys st.parentMapping, k ∈ alKeys st'.parentMapping) ∧
    (∀ (mrt : RefTarget → RefTarget → RefTarget → RefTarget) (store : Store)
       (mergeTrees : List Nat → Nat) (discardable : Nat → Bool)
       (parentsF : Nat → List Nat) (options : RewriteRefsOptions) (st st' : MRepo),
      update_rewritten_references mrt store mergeTrees discardable parentsF
          options st = some st' →
      ∀ k ∈ alKeys st.parentMapping, k ∈ alKeys st'.parentMapping) := by
  refine ⟨?_, ?_, set_rewritten_commit_keys, set_divergent_rewrite_keys,
    record_abandoned_commit_keys, record_abandoned_commit_with_parents_keys,
    transform_commits_keys, update_rewritten_references_keys⟩
  · intro mrt store mergeTrees discardable parentsF options descendants
      should_restore reparented outcome st st' h
    simp only [rebase_or_reparent_descendants_with_options] at h
    cases htr : transform_commits mrt store mergeTrees discardable parentsF
        options.rewrite_refs
        (fun id c new_parent_ids =>
          if new_parent_ids == c.parents then .keep
          else if should_restore id then .write (reparented id new_parent_ids)
          else outcome id new_parent_ids)
        descendants [] st with
    | none => rw [htr] at h; exact absurd h (by simp)
    | some st1 =>
      rw [htr] at h
      cases h
      rfl
  · intro mrt store mergeTrees discardable parentsF descendants reparented
      outcome st st' h
    simp only [rebase_descendants, rebase_or_reparent_descendants,
      rebase_or_reparent_descendants_with_options] at h
    cases htr : transform_commits mrt store mergeTrees discardable parentsF
        { delete_abandoned_bookmarks := false }
        (fun id c new_parent_ids =>
          if new_parent_ids == c.parents then .keep
          else if (fun _ => false) id then .write (reparented id new_parent_ids)
          else outcome id new_parent_ids)
        descendants [] st with
    | none => rw [htr] at h; exact absurd h (by simp)
    | some st1 =>
      rw [htr] at h
      cases h
      rfl

/-- Witness for C2: a concrete successful `rebase_descendants` run leaves an
empty ledger. -/
theorem c2_rebase_descendants_clears_parent_mapping_witness :
    rebase_descendants (fun _ _ other => other) { root := 0, commits := [] }
        (fun _ => 0) (fun _ => false) (fun _ => []) [] (fun _ _ => 0)
        (fun _ _ => .keep)
        { emptyRepo with parentMapping := [(1, .Rewritten 2)] } =
      some { emptyRepo with parentMapping := [] } ∧
    ({ emptyRepo with parentMapping := ([] : List (Nat × Rewrite)) } : MRepo).parentMapping
      = [] := by
  constructor
  · rfl
  · exact c2_rebase_descendants_clears_parent_mapping.2.1
      (fun _ _ other => other) { root := 0, commits := [] } (fun _ => 0)
      (fun _ => false) (fun _ => []) [] (fun _ _ => 0) (fun _ _ => .keep)
      { emptyRepo with parentMapping := [(1, .Rewritten 2)] }
      { emptyRepo with parentMapping := [] } (by rfl)

theorem add_head_wcCommitIds (st : MRepo) (cid : Nat) (cdata : CommitData) :
    (add_head st cid cdata).wcCommitIds = st.wcCommitIds := by
  unfold add_head
  split <;> rfl

theorem add_head_newCommits (st : MRepo) (cid : Nat) (cdata : CommitData) :
    (add_head st cid cdata).newCommits = st.newCommits := by
  unfold add_head
  split <;> rfl

theorem add_head_nextCommitId (st : MRepo) (cid : Nat) (cdata : CommitData) :
    (add_head st cid cdata).nextCommitId = st.nextCommitId := by
  unfold add_head
  split <;> rfl

theorem add_head_localBookmarks (st : MRepo) (cid : Nat) (cdata : CommitData) :
    (add_head st cid cdata).localBookmarks = st.localBookmarks := by
  unfold add_head
  split <;> rfl

theorem get_commit_in_of_newCommits (store : Store) (st : MRepo) (id : Nat)
    (cd : CommitData) (h : alLookup st.newCommits id = some cd) :
    get_commit_in store st id = some cd := by
  simp [get_commit_in, h]

theorem alLookup_of_mem_nodup {α : Type} (l : List (Nat × α)) (k : Nat) (v : α)
    (hmem : (k, v) ∈ l) (hnd : (l.map Prod.fst).Nodup) : alLookup l k = some v := by
  induction l with
  | nil => cases hmem
  | cons e rest ih =>
    rcases List.mem_cons.mp hmem with heq | hmem2
    · rw [← heq]
      simp [alLookup]
    · have hnd2 : (e.1 :: rest.map Prod.fst).Nodup := by
        rw [List.map_cons] at hnd
        exact hnd
      have hnd' := List.nodup_cons.mp hnd2
      have hne : e.1 ≠ k := by
        intro heq
        exact hnd'.1 (heq ▸ List.mem_map.mpr ⟨(k, v), hmem2, rfl⟩)
      simp only [alLookup, if_neg hne]
      exact ih hmem2 hnd'.2

theorem alLookup_mem {α : Type} (l : List (Nat × α)) (k : Nat) (v : α)
    (h : alLookup l k = some v) : (k, v) ∈ l := by
  induction l with
  | nil => simp [alLookup] at h
  | cons e rest ih =>
    simp only [alLookup] at h
    by_cases he : e.1 = k
    · rw [if_pos he] at h
      cases h
      rw [← he]
      simp
    · rw [if_neg he] at h
      exact List.mem_cons_of_mem e (ih h)

theorem is_commit_referenced_of_wc (st : MRepo) (name n w : Nat)
    (hmem : (n, w) ∈ st.wcCommitIds) (hne : n ≠ name) :
    is_commit_referenced st name w = true := by
  simp only [is_commit_referenced, Bool.or_eq_true, List.any_eq_true]
  left
  exact ⟨(n, w), List.mem_filter.mpr ⟨hmem, by simpa using hne⟩, by simp⟩

theorem abandonedIn_eq_of_lookup (st1 st2 : MRepo) (x : Nat)
    (h : alLookup st1.parentMapping x = alLookup st2.parentMapping x) :
    abandonedIn st1 x = abandonedIn st2 x := by
  simp [abandonedIn, h]

theorem abandonedIn_congr (st1 st2 : MRepo) (x : Nat)
    (h : st1.parentMapping = st2.parentMapping) :
    abandonedIn st1 x = abandonedIn st2 x := by
  simp [abandonedIn, h]

theorem maybe_abandon_success_shape (store : Store) (discardable : Nat → Bool)
    (st : MRepo) (name w : Nat) (stm : MRepo)
    (hwc : alLookup st.wcCommitIds name = some w)
    (h : maybe_abandon_wc_commit store discardable st name = some stm) :
    stm.wcCommitIds = st.wcCommitIds ∧
    stm.newCommits = st.newCommits ∧
    stm.nextCommitId = st.nextCommitId ∧
    stm.localBookmarks = st.localBookmarks ∧
    (∀ x, x ≠ w → alLookup stm.parentMapping x = alLookup st.parentMapping x) ∧
    (is_commit_referenced st name w = true → stm.parentMapping = st.parentMapping) := by
  simp only [maybe_abandon_wc_commit] at h
  split at h
  · rename_i hnone
    rw [hwc] at hnone
    exact absurd hnone (by simp)
  · rename_i wcid hwcid
    rw [hwc] at hwcid
    have hww : w = wcid := (Option.some.injEq _ _).mp hwcid
    subst hww
    split at h
    · exact absurd h (by simp)
    · rename_i c hget
      split at h
      · rename_i hcond
        simp only [record_abandoned_commit] at h
        split at h
        · exact absurd h (by simp)
        · rename_i hroot
          simp only [record_abandoned_commit_with_parents, if_neg hroot,
            Option.some.injEq] at h
          subst h
          refine ⟨rfl, rfl, rfl, rfl, ?_, ?_⟩
          · intro x hx
            exact alLookup_insert_ne _ _ _ _ (fun e => hx e.symm)
          · intro href
            rw [href] at hcond
            simp at hcond
      · cases h
        exact ⟨rfl, rfl, rfl, rfl, fun x _ => rfl, fun _ => rfl⟩

theorem edit_success_shape (store : Store) (discardable : Nat → Bool)
    (st : MRepo) (name cid : Nat) (cdata : CommitData) (w : Nat) (st1 : MRepo)
    (hwc : alLookup st.wcCommitIds name = some w)
    (hedit : edit store discardable st name cid cdata = some st1) :
    st1.newCommits = st.newCommits ∧
    st1.nextCommitId = st.nextCommitId ∧
    st1.localBookmarks = st.localBookmarks ∧
    alLookup st1.wcCommitIds name = some cid ∧
    (∀ n, n ≠ name → alLookup st1.wcCommitIds n = alLookup st.wcCommitIds n) ∧
    (∀ x, x ≠ w → alLookup st1.parentMapping x = alLookup st.parentMapping x) ∧
    (is_commit_referenced st name w = true → st1.parentMapping = st.parentMapping) := by
  simp only [edit] at hedit
  split at hedit
  · exact absurd hedit (by simp)
  · rename_i stm hma
    obtain ⟨hwcm, hncm, hnxm, hlbm, hpmm, hrefm⟩ :=
      maybe_abandon_success_shape store discardable st name w stm hwc hma
    by_cases hroot : cid = store.root
    · simp [set_wc_commit, hroot] at hedit
    · simp only [set_wc_commit, if_neg hroot, Option.some.injEq] at hedit
      subst hedit
      refine ⟨by simp [add_head_newCommits, hncm],
        by simp [add_head_nextCommitId, hnxm],
        by simp [add_head_localBookmarks, hlbm], ?_, ?_, ?_, ?_⟩
      · simp only [add_head_wcCommitIds]
        exact alLookup_insert_self _ _ _
      · intro n hn
        simp only [add_head_wcCommitIds]
        rw [alLookup_insert_ne _ _ _ _ (fun e => hn e.symm), hwcm]
      · intro x hx
        simp only [add_head_parentMapping]
        exact hpmm x hx
      · intro href
        simp only [add_head_parentMapping]
        exact hrefm href

theorem update_wc_commits_loop_spec (store : Store) (mergeTrees : List Nat → Nat)
    (discardable : Nat → Bool) :
    ∀ (entries : List (Nat × Nat × List Nat)) (recreated : List (Nat × Nat))
      (st st' : MRepo),
      update_wc_commits_loop store mergeTrees discardable entries recreated st = some st' →
      (entries.map (fun e => e.1)).Nodup →
      (∀ e ∈ entries, alLookup st.wcCommitIds e.1 = some e.2.1) →
      (∀ id ∈ alKeys st.newCommits, id < st.nextCommitId) →
      (∀ e ∈ entries, ∀ e' ∈ entries, e.2.1 = e'.2.1 → e.2.2 = e'.2.2) →
      (∀ old cid, alLookup recreated old = some cid →
        ∃ cd, alLookup st.newCommits cid = some cd ∧
          ∀ e ∈ entries, e.2.1 = old → cd.parents = e.2.2 ∧ cd.tree = mergeTrees e.2.2) →
      ∃ g : Nat → Nat,
        (∀ old cid, alLookup recreated old = some cid → g old = cid) ∧
        (∀ n, n ∉ entries.map (fun e => e.1) →
          alLookup st'.wcCommitIds n = alLookup st.wcCommitIds n) ∧
        (∀ id cd, alLookup st.newCommits id = some cd →
          alLookup st'.newCommits id = some cd) ∧
        (∀ e ∈ entries,
          (abandonedIn st e.2.1 = false →
            ∃ n0 tl, e.2.2 = n0 :: tl ∧ alLookup st'.wcCommitIds e.1 = some n0) ∧
          (abandonedIn st e.2.1 = true →
            alLookup st'.wcCommitIds e.1 = some (g e.2.1) ∧
            ∃ cd, alLookup st'.newCommits (g e.2.1) = some cd ∧
              cd.parents = e.2.2 ∧ cd.tree = mergeTrees e.2.2)) := by
  intro entries
  induction entries with
  | nil =>
    intro recreated st st' hloop _ _ _ _ _
    cases hloop
    exact ⟨fun o => (alLookup recreated o).getD 0,
      fun old cid h => by simp [h],
      fun n _ => rfl, fun id cd h => h, fun e he => absurd he (List.not_mem_nil e)⟩
  | cons hd_e rest ih =>
    intro recreated st st' hloop hnodup hwc hf hsame hmemo
    obtain ⟨name, old, news⟩ := hd_e
    have hname_notin : name ∉ rest.map (fun e => e.1) :=
      (List.nodup_cons.mp (by simpa using hnodup)).1
    have hnodup' : (rest.map (fun e => e.1)).Nodup :=
      (List.nodup_cons.mp (by simpa using hnodup)).2
    have hwc_head : alLookup st.wcCommitIds name = some old :=
      hwc (name, old, news) (List.mem_cons_self _ _)
    simp only [update_wc_commits_loop] at hloop
    split at hloop
    · -- not abandoned
      rename_i hcond
      have hab : abandonedIn st old = false := by simpa using hcond
      split at hloop
      · exact absurd hloop (by simp)
      · rename_i n0 tl
        split at hloop
        · exact absurd hloop (by simp)
        · rename_i c0 hget
          split at hloop
          · exact absurd hloop (by simp)
          · rename_i st1 hedit
            obtain ⟨hnc1, hnext1, _, hwcname1, hwcother1, hpm1x, hpm1ref⟩ :=
              edit_success_shape store discardable st name n0 c0 old st1
                hwc_head hedit
            obtain ⟨g, hgext, hwco', hnc', hconc⟩ :=
              ih recreated st1 st' hloop hnodup'
                (fun e he => by
                  rw [hwcother1 e.1 (fun heq =>
                    hname_notin (heq ▸ List.mem_map.mpr ⟨e, he, rfl⟩))]
                  exact hwc e (List.mem_cons_of_mem _ he))
                (fun id hid => by
                  rw [hnext1]
                  exact hf id (by rw [← hnc1]; exact hid))
                (fun e he e' he' => hsame e (List.mem_cons_of_mem _ he) e'
                  (List.mem_cons_of_mem _ he'))
                (fun old0 cid0 h0 => by
                  obtain ⟨cd, hcd, hdata⟩ := hmemo old0 cid0 h0
                  exact ⟨cd, by rw [hnc1]; exact hcd,
                    fun e he => hdata e (List.mem_cons_of_mem _ he)⟩)
            refine ⟨g, hgext, ?_, ?_, ?_⟩
            · intro n hn
              have hn1 : n ∉ rest.map (fun e => e.1) := fun hmem =>
                hn (List.mem_cons_of_mem _ hmem)
              have hn2 : n ≠ name := fun heq => hn (by simp [heq])
              rw [hwco' n hn1, hwcother1 n hn2]
            · intro id cd h0
              exact hnc' id cd (by rw [hnc1]; exact h0)
            · intro e he
              rcases List.mem_cons.mp he with heq | he2
              · subst heq
                constructor
                · intro _
                  refine ⟨n0, tl, rfl, ?_⟩
                  rw [hwco' name hname_notin]
                  exact hwcname1
                · intro habs
                  rw [hab] at habs
                  exact absurd habs (by simp)
              · have hcon := hconc e he2
                have habe : abandonedIn st1 e.2.1 = abandonedIn st e.2.1 := by
                  by_cases heo : e.2.1 = old
                  · have hne : e.1 ≠ name := fun heq =>
                      hname_notin (heq ▸ List.mem_map.mpr ⟨e, he2, rfl⟩)
                    have hmemw : (e.1, e.2.1) ∈ st.wcCommitIds :=
                      alLookup_mem _ _ _ (hwc e (List.mem_cons_of_mem _ he2))
                    rw [heo]
                    exact abandonedIn_congr st1 st old
                      (hpm1ref (is_commit_referenced_of_wc st name e.1 old
                        (heo ▸ hmemw) hne))
                  · exact abandonedIn_eq_of_lookup st1 st e.2.1 (hpm1x e.2.1 heo)
                rw [habe] at hcon
                exact hcon
    · -- abandoned
      rename_i hcond
      have hab : abandonedIn st old = true := by simpa using hcond
      split at hloop
      · -- memo hit
        rename_i cid hrec
        split at hloop
        · exact absurd hloop (by simp)
        · rename_i c hget
          split at hloop
          · exact absurd hloop (by simp)
          · rename_i st1 hedit
            obtain ⟨cd, hcd_nc, hcd_data⟩ := hmemo old cid hrec
            have hceq : c = cd := by
              have h1 := get_commit_in_of_newCommits store st cid cd hcd_nc
              rw [hget] at h1
              cases h1
              rfl
            obtain ⟨hnc1, hnext1, _, hwcname1, hwcother1, hpm1x, hpm1ref⟩ :=
              edit_success_shape store discardable st name cid c old st1
                hwc_head hedit
            obtain ⟨g, hgext, hwco', hnc', hconc⟩ :=
              ih recreated st1 st' hloop hnodup'
                (fun e he => by
                  rw [hwcother1 e.1 (fun heq =>
                    hname_notin (heq ▸ List.mem_map.mpr ⟨e, he, rfl⟩))]
                  exact hwc e (List.mem_cons_of_mem _ he))
                (fun id hid => by
                  rw [hnext1]
                  exact hf id (by rw [← hnc1]; exact hid))
                (fun e he e' he' => hsame e (List.mem_cons_of_mem _ he) e'
                  (List.mem_cons_of_mem _ he'))
                (fun old0 cid0 h0 => by
                  obtain ⟨cd0, hcd0, hdata0⟩ := hmemo old0 cid0 h0
                  exact ⟨cd0, by rw [hnc1]; exact hcd0,
                    fun e he => hdata0 e (List.mem_cons_of_mem _ he)⟩)
            refine ⟨g, hgext, ?_, ?_, ?_⟩
            · intro n hn
              have hn1 : n ∉ rest.map (fun e => e.1) := fun hmem =>
                hn (List.mem_cons_of_mem _ hmem)
              have hn2 : n ≠ name := fun heq => hn (by simp [heq])
              rw [hwco' n hn1, hwcother1 n hn2]
            · intro id cd0 h0
              exact hnc' id cd0 (by rw [hnc1]; exact h0)
            · intro e he
              rcases List.mem_cons.mp he with heq | he2
              · subst heq
                constructor
                · intro habs
                  rw [hab] at habs
                  exact absurd habs (by simp)
                · intro _
                  have hgold : g old = cid := hgext old cid hrec
                  refine ⟨?_, cd, ?_,
                    (hcd_data (name, old, news) (List.mem_cons_self _ _) rfl).1,
                    (hcd_data (name, old, news) (List.mem_cons_self _ _) rfl).2⟩
                  · rw [hwco' name hname_notin, hgold]
                    exact hwcname1
                  · rw [hgold]
                    exact hnc' cid cd (by rw [hnc1]; exact hcd_nc)
              · have hcon := hconc e he2
                have habe : abandonedIn st1 e.2.1 = abandonedIn st e.2.1 := by
                  by_cases heo : e.2.1 = old
                  · have hne : e.1 ≠ name := fun heq =>
                      hname_notin (heq ▸ List.mem_map.mpr ⟨e, he2, rfl⟩)
                    have hmemw : (e.1, e.2.1) ∈ st.wcCommitIds :=
                      alLookup_mem _ _ _ (hwc e (List.mem_cons_of_mem _ he2))
                    rw [heo]
                    exact abandonedIn_congr st1 st old
                      (hpm1ref (is_commit_referenced_of_wc st name e.1 old
                        (heo ▸ hmemw) hne))
                  · exact abandonedIn_eq_of_lookup st1 st e.2.1 (hpm1x e.2.1 heo)
                rw [habe] at hcon
                exact hcon
      · -- memo miss: create a fresh commit
        rename_i hrec
        split at hloop
        · rename_i hall
          split at hloop
          · exact absurd hloop (by simp)
          · rename_i st1 hedit
            have hwcW : alLookup
                (write_new_commit st news (mergeTrees news)).2.wcCommitIds name =
                some old := hwc_head
            obtain ⟨hnc1, hnext1, _, hwcname1, hwcother1, hpm1x, hpm1ref⟩ :=
              edit_success_shape store discardable
                (write_new_commit st news (mergeTrees news)).2 name
                (write_new_commit st news (mergeTrees news)).1
                { parents := news, tree := mergeTrees news,
                  changeId := (write_new_commit st news (mergeTrees news)).1 }
                old st1 hwcW hedit
            have hcid : (write_new_commit st news (mergeTrees news)).1 =
                st.nextCommitId := rfl
            have hncW : (write_new_commit st news (mergeTrees news)).2.newCommits =
                alInsert st.nextCommitId
                  { parents := news, tree := mergeTrees news,
                    changeId := st.nextCommitId } st.newCommits := rfl
            have hnextW : (write_new_commit st news (mergeTrees news)).2.nextCommitId =
                st.nextCommitId + 1 := rfl
            have hfresh : ∀ id ∈ alKeys st.newCommits, id ≠ st.nextCommitId :=
              fun id hid heq => by
                have := hf id hid
                omega
            obtain ⟨g, hgext, hwco', hnc', hconc⟩ :=
              ih (alInsert old st.nextCommitId recreated) st1 st' (by
                  rw [hcid] at hloop
                  exact hloop)
                hnodup'
                (fun e he => by
                  rw [hwcother1 e.1 (fun heq =>
                    hname_notin (heq ▸ List.mem_map.mpr ⟨e, he, rfl⟩))]
                  exact hwc e (List.mem_cons_of_mem _ he))
                (fun id hid => by
                  rw [hnext1, hnextW]
                  rw [hnc1, hncW] at hid
                  rcases (mem_alKeys_insert _ _ _ _).mp hid with heq | hid2
                  · omega
                  · have := hf id hid2
                    omega)
                (fun e he e' he' => hsame e (List.mem_cons_of_mem _ he) e'
                  (List.mem_cons_of_mem _ he'))
                (fun old0 cid0 h0 => by
                  by_cases hoe : old = old0
                  · subst hoe
                    rw [alLookup_insert_self] at h0
                    cases h0
                    refine ⟨⟨news, mergeTrees news, st.nextCommitId⟩, ?_, ?_⟩
                    · rw [hnc1, hncW]
                      exact alLookup_insert_self _ _ _
                    · intro e he heq
                      have hsame' := hsame (name, old, news) (List.mem_cons_self _ _)
                        e (List.mem_cons_of_mem _ he) heq.symm
                      exact ⟨hsame', by rw [← hsame']⟩
                  · rw [alLookup_insert_ne _ _ _ _ hoe] at h0
                    obtain ⟨cd0, hcd0, hdata0⟩ := hmemo old0 cid0 h0
                    refine ⟨cd0, ?_, fun e he => hdata0 e (List.mem_cons_of_mem _ he)⟩
                    rw [hnc1, hncW]
                    rw [alLookup_insert_ne]
                    · exact hcd0
                    · exact fun heq =>
                        hfresh cid0 (alLookup_mem_keys _ _ _ hcd0) heq.symm)
            refine ⟨g, ?_, ?_, ?_, ?_⟩
            · intro old0 cid0 h0
              have hoe : old ≠ old0 := fun heq => by
                rw [← heq, hrec] at h0
                exact absurd h0 (by simp)
              exact hgext old0 cid0 (by rw [alLookup_insert_ne _ _ _ _ hoe]; exact h0)
            · intro n hn
              have hn1 : n ∉ rest.map (fun e => e.1) := fun hmem =>
                hn (List.mem_cons_of_mem _ hmem)
              have hn2 : n ≠ name := fun heq => hn (by simp [heq])
              rw [hwco' n hn1, hwcother1 n hn2]
              rfl
            · intro id cd0 h0
              refine hnc' id cd0 ?_
              rw [hnc1, hncW]
              rw [alLookup_insert_ne]
              · exact h0
              · exact fun heq =>
                  hfresh id (alLookup_mem_keys _ _ _ h0) heq.symm
            · intro e he
              rcases List.mem_cons.mp he with heq | he2
              · subst heq
                constructor
                · intro habs
                  rw [hab] at habs
                  exact absurd habs (by simp)
                · intro _
                  have hgold : g old = st.nextCommitId :=
                    hgext old st.nextCommitId (alLookup_insert_self _ _ _)
                  refine ⟨?_, ⟨news, mergeTrees news, st.nextCommitId⟩, ?_, rfl, rfl⟩
                  · rw [hwco' name hname_notin, hgold, ← hcid]
                    exact hwcname1
                  · rw [hgold]
                    refine hnc' st.nextCommitId _ ?_
                    rw [hnc1, hncW]
                    exact alLookup_insert_self _ _ _
              · have hcon := hconc e he2
                have habe : abandonedIn st1 e.2.1 = abandonedIn st e.2.1 := by
                  by_cases heo : e.2.1 = old
                  · have hne : e.1 ≠ name := fun heq =>
                      hname_notin (heq ▸ List.mem_map.mpr ⟨e, he2, rfl⟩)
                    have hmemw : (e.1, e.2.1) ∈ st.wcCommitIds :=
                      alLookup_mem _ _ _ (hwc e (List.mem_cons_of_mem _ he2))
                    rw [heo]
                    exact abandonedIn_congr st1 st old
                      (hpm1ref (is_commit_referenced_of_wc
                        (write_new_commit st news (mergeTrees news)).2 name e.1 old
                        (heo ▸ hmemw) hne))
                  · exact abandonedIn_eq_of_lookup st1 st e.2.1 (hpm1x e.2.1 heo)
                rw [habe] at hcon
                exact hcon
        · exact absurd hloop (by simp)

theorem changed_wc_names_sublist (M : List (Nat × List Nat)) :
    ∀ wcs : List (Nat × Nat),
      ((wcs.filterMap (fun nc =>
          match alLookup M nc.2 with
          | none => none
          | some news => some (nc.1, nc.2, news))).map (fun e => e.1)).Sublist
        (wcs.map Prod.fst) := by
  intro wcs
  induction wcs with
  | nil => simp
  | cons nc rest ih =>
    rw [List.filterMap_cons]
    cases h : alLookup M nc.2 with
    | none =>
      simp only [h, List.map_cons]
      exact ih.cons nc.1
    | some news =>
      simp only [h, List.map_cons]
      exact ih.cons₂ nc.1

theorem mem_changed_wc (M : List (Nat × List Nat)) (wcs : List (Nat × Nat))
    (e : Nat × Nat × List Nat) :
    e ∈ wcs.filterMap (fun nc =>
        match alLookup M nc.2 with
        | none => none
        | some news => some (nc.1, nc.2, news)) ↔
      (e.1, e.2.1) ∈ wcs ∧ alLookup M e.2.1 = some e.2.2 := by
  rw [List.mem_filterMap]
  constructor
  · rintro ⟨nc, hnc, hfnc⟩
    cases hM : alLookup M nc.2 with
    | none => rw [hM] at hfnc; exact absurd hfnc (by simp)
    | some news =>
      rw [hM] at hfnc
      simp only [Option.some.injEq] at hfnc
      rw [← hfnc]
      exact ⟨hnc, hM⟩
  · rintro ⟨hmem, hM⟩
    refine ⟨(e.1, e.2.1), hmem, ?_⟩
    rw [hM]

/-- C8: for every workspace whose working-copy commit id `old` is a key of
the resolved rewrite map, `update_wc_commits` moves the working copy: when
`old`'s ledger entry is not `Abandoned`, to the first replacement
`new_ids[0]`; when it is `Abandoned`, to a newly created commit whose parents
are the resolved new ids and whose tree is the merged tree of those parents,
and every workspace sharing the same abandoned `old` is moved to the same
single new commit (`g old`).  The abandonment heuristic of
`maybe_abandon_wc_commit` may fire on a leaving commit mid-loop, but it never
touches the ledger entry of a commit still pointed to by a later workspace,
so the classification is stated over the initial state.  Hypotheses:
workspace names are unique and transaction-written commit ids are below the
allocator counter. -/
theorem c8_update_wc_commits (store : Store) (mergeTrees : List Nat → Nat)
    (discardable : Nat → Bool) (M : List (Nat × List Nat)) (st st' : MRepo)
    (h : update_wc_commits store mergeTrees discardable M st = some st')
    (hnodup : (st.wcCommitIds.map Prod.fst).Nodup)
    (hfresh : ∀ id ∈ alKeys st.newCommits, id < st.nextCommitId) :
    ∃ g : Nat → Nat,
      ∀ name old news, (name, old) ∈ st.wcCommitIds → alLookup M old = some news →
        (abandonedIn st old = false →
          ∃ n0 tl, news = n0 :: tl ∧ alLookup st'.wcCommitIds name = some n0) ∧
        (abandonedIn st old = true →
          alLookup st'.wcCommitIds name = some (g old) ∧
          ∃ cd, alLookup st'.newCommits (g old) = some cd ∧
            cd.parents = news ∧ cd.tree = mergeTrees news) := by
  simp only [update_wc_commits] at h
  obtain ⟨g, _, _, _, hconc⟩ :=
    update_wc_commits_loop_spec store mergeTrees discardable _ [] st st' h
      (List.Nodup.sublist (changed_wc_names_sublist M st.wcCommitIds) hnodup)
      (fun e he => alLookup_of_mem_nodup st.wcCommitIds e.1 e.2.1
        ((mem_changed_wc M st.wcCommitIds e).mp he).1 hnodup)
      hfresh
      (fun e he e' he' heq => by
        have h1 := ((mem_changed_wc M st.wcCommitIds e).mp he).2
        have h2 := ((mem_changed_wc M st.wcCommitIds e').mp he').2
        rw [heq] at h1
        rw [h1] at h2
        exact (Option.some.injEq _ _).mp h2)
      (fun old cid h0 => absurd h0 (by simp [alLookup]))
  refine ⟨g, fun name old news hmem hM => ?_⟩
  exact hconc (name, old, news)
    ((mem_changed_wc M st.wcCommitIds (name, old, news)).mpr ⟨hmem, hM⟩)

/-- Witness for C8: two workspaces at the same abandoned commit get the same
freshly created working-copy commit, whose parents are the resolved ids; the
leaving commit is discardable, so the mid-loop abandonment heuristic of
`maybe_abandon_wc_commit` is live. -/
theorem c8_update_wc_commits_witness :
    ∃ g : Nat → Nat,
      ∀ name old news,
        (name, old) ∈ ({ emptyRepo with
            parentMapping := [(5, .Abandoned [3])]
            wcCommitIds := [(1, 5), (2, 5)]
            headIds := [5] } : MRepo).wcCommitIds →
        alLookup [(5, [6])] old = some news →
        (abandonedIn { emptyRepo with
            parentMapping := [(5, .Abandoned [3])]
            wcCommitIds := [(1, 5), (2, 5)]
            headIds := [5] } old = false →
          ∃ n0 tl, news = n0 :: tl ∧
            alLookup ((update_wc_commits
              { root := 0, commits := [(5, ⟨[0], 0, 5⟩), (6, ⟨[0], 1, 6⟩)] }
              (fun _ => 99) (fun _ => true) [(5, [6])]
              { emptyRepo with
                parentMapping := [(5, .Abandoned [3])]
                wcCommitIds := [(1, 5), (2, 5)]
                headIds := [5] }).get (by decide)).wcCommitIds name = some n0) ∧
        (abandonedIn { emptyRepo with
            parentMapping := [(5, .Abandoned [3])]
            wcCommitIds := [(1, 5), (2, 5)]
            headIds := [5] } old = true →
          alLookup ((update_wc_commits
              { root := 0, commits := [(5, ⟨[0], 0, 5⟩), (6, ⟨[0], 1, 6⟩)] }
              (fun _ => 99) (fun _ => true) [(5, [6])]
              { emptyRepo with
                parentMapping := [(5, .Abandoned [3])]
                wcCommitIds := [(1, 5), (2, 5)]
                headIds := [5] }).get (by decide)).wcCommitIds name = some (g old) ∧
          ∃ cd, alLookup ((update_wc_commits
              { root := 0, commits := [(5, ⟨[0], 0, 5⟩), (6, ⟨[0], 1, 6⟩)] }
              (fun _ => 99) (fun _ => true) [(5, [6])]
              { emptyRepo with
                parentMapping := [(5, .Abandoned [3])]
                wcCommitIds := [(1, 5), (2, 5)]
                headIds := [5] }).get (by decide)).newCommits (g old) = some cd ∧
            cd.parents = news ∧ cd.tree = (fun (_ : List Nat) => 99) news) := by
  exact c8_update_wc_commits
    { root := 0, commits := [(5, ⟨[0], 0, 5⟩), (6, ⟨[0], 1, 6⟩)] }
    (fun _ => 99) (fun _ => true) [(5, [6])]
    { emptyRepo with
      parentMapping := [(5, .Abandoned [3])]
      wcCommitIds := [(1, 5), (2, 5)]
      headIds := [5] }
    ((update_wc_commits
        { root := 0, commits := [(5, ⟨[0], 0, 5⟩), (6, ⟨[0], 1, 6⟩)] }
        (fun _ => 99) (fun _ => true) [(5, [6])]
        { emptyRepo with
          parentMapping := [(5, .Abandoned [3])]
          wcCommitIds := [(1, 5), (2, 5)]
          headIds := [5] }).get (by decide))
    (Option.some_get _).symm
    (by decide) (by decide)

theorem exists_alLookup_of_mem_keys {α : Type} (l : List (Nat × α)) (k : Nat)
    (h : k ∈ alKeys l) : ∃ v, alLookup l k = some v := by
  induction l with
  | nil => simp [alKeys] at h
  | cons e rest ih =>
    simp only [alKeys, List.map_cons, List.mem_cons] at h
    by_cases he : e.1 = k
    · exact ⟨e.2, by simp [alLookup, he]⟩
    · rcases h with h | h
      · exact absurd h.symm he
      · obtain ⟨v, hv⟩ := ih (by simpa [alKeys] using h)
        exact ⟨v, by simp [alLookup, he, hv]⟩

theorem alKeys_insert_nodup {α : Type} (l : List (Nat × α)) (k : Nat) (v : α)
    (h : (alKeys l).Nodup) : (alKeys (alInsert k v l)).Nodup := by
  simp only [alInsert, alKeys, List.map_cons]
  refine List.nodup_cons.mpr ⟨?_, ?_⟩
  · intro hmem
    obtain ⟨e, he, heq⟩ := List.mem_map.mp hmem
    have := (List.mem_filter.mp he).2
    simp [heq] at this
  · exact List.Nodup.sublist (List.Sublist.map Prod.fst (List.filter_sublist l)) h

theorem foldl_add_removed_keys_nodup :
    ∀ (walk : List (Nat × Nat)) (m : List (Nat × List Nat)),
      (alKeys m).Nodup → (alKeys (walk.foldl add_removed m)).Nodup := by
  intro walk
  induction walk with
  | nil => intro m h; exact h
  | cons p rest ih =>
    intro m h
    simp only [List.foldl_cons]
    refine ih (add_removed m p) ?_
    simp only [add_removed]
    cases hm : alLookup m p.2 with
    | none => exact alKeys_insert_nodup m p.2 [p.1] h
    | some l => exact alKeys_insert_nodup m p.2 (l ++ [p.1]) h

theorem foldl_add_removed_ne_nil :
    ∀ (walk : List (Nat × Nat)) (m : List (Nat × List Nat)),
      (m ≠ [] ∨ walk ≠ []) → walk.foldl add_removed m ≠ [] := by
  intro walk
  induction walk with
  | nil =>
    intro m h
    rcases h with h | h
    · exact h
    · exact absurd rfl h
  | cons p rest ih =>
    intro m _
    simp only [List.foldl_cons]
    refine ih (add_removed m p) (Or.inl ?_)
    simp only [add_removed]
    cases hm : alLookup m p.2 with
    | none => simp [alInsert]
    | some l => simp [alInsert]

theorem lookup_foldl_add_removed :
    ∀ (walk : List (Nat × Nat)) (m : List (Nat × List Nat)) (ch : Nat),
      alLookup (walk.foldl add_removed m) ch =
        match alLookup m ch with
        | none =>
          if (walk.filter (fun p => p.2 == ch)) = [] then none
          else some ((walk.filter (fun p => p.2 == ch)).map Prod.fst)
        | some l => some (l ++ (walk.filter (fun p => p.2 == ch)).map Prod.fst) := by
  intro walk
  induction walk with
  | nil =>
    intro m ch
    cases h : alLookup m ch <;> simp [h]
  | cons p rest ih =>
    intro m ch
    simp only [List.foldl_cons]
    rw [ih]
    by_cases hc : p.2 = ch
    · have hfil : (p :: rest).filter (fun q => q.2 == ch) =
          p :: rest.filter (fun q => q.2 == ch) := by
        rw [List.filter_cons, if_pos (by simp [hc])]
      cases hm : alLookup m ch with
      | none =>
        have h1 : add_removed m p = alInsert p.2 [p.1] m := by
          rw [add_removed.eq_def]
          rw [hc, hm]
        have h2 : alLookup (add_removed m p) ch = some [p.1] := by
          rw [h1, ← hc]
          exact alLookup_insert_self _ _ _
        rw [h2, hfil]
        simp
      | some l =>
        have h1 : add_removed m p = alInsert p.2 (l ++ [p.1]) m := by
          rw [add_removed.eq_def]
          rw [hc, hm]
        have h2 : alLookup (add_removed m p) ch = some (l ++ [p.1]) := by
          rw [h1, ← hc]
          exact alLookup_insert_self _ _ _
        rw [h2, hfil]
        simp
    · have hfil : (p :: rest).filter (fun q => q.2 == ch) =
          rest.filter (fun q => q.2 == ch) := by
        rw [List.filter_cons, if_neg (by simp [hc])]
      have h2 : alLookup (add_removed m p) ch = alLookup m ch := by
        rw [add_removed.eq_def]
        cases hm : alLookup m p.2 with
        | none => exact alLookup_insert_ne m p.2 ch [p.1] hc
        | some l => exact alLookup_insert_ne m p.2 ch (l ++ [p.1]) hc
      rw [h2, hfil]

theorem lookup_pushOne_self (rc : List (Nat × List Nat)) (old x : Nat) :
    alLookup (pushOne rc old x) old =
      some (((alLookup rc old).getD []) ++ [x]) := by
  rw [pushOne.eq_def]
  cases h : alLookup rc old with
  | none => simp [alLookup_insert_self]
  | some l => simp [alLookup_insert_self]

theorem lookup_pushOne_ne (rc : List (Nat × List Nat)) (old x old' : Nat)
    (h : old ≠ old') :
    alLookup (pushOne rc old x) old' = alLookup rc old' := by
  rw [pushOne.eq_def]
  cases hm : alLookup rc old with
  | none => exact alLookup_insert_ne rc old old' [x] h
  | some l => exact alLookup_insert_ne rc old old' (l ++ [x]) h

theorem lookup_foldl_pushOne :
    ∀ (olds : List Nat) (rc : List (Nat × List Nat)) (x old : Nat),
      olds.Nodup →
      alLookup (olds.foldl (fun rc o => pushOne rc o x) rc) old =
        if old ∈ olds then some (((alLookup rc old).getD []) ++ [x])
        else alLookup rc old := by
  intro olds
  induction olds with
  | nil => intro rc x old _; simp
  | cons o rest ih =>
    intro rc x old hnd
    obtain ⟨hno, hnd'⟩ := List.nodup_cons.mp hnd
    simp only [List.foldl_cons]
    rw [ih (pushOne rc o x) x old hnd']
    by_cases ho : old = o
    · subst ho
      rw [if_neg hno, if_pos (List.mem_cons_self _ _)]
      exact lookup_pushOne_self rc old x
    · rw [lookup_pushOne_ne rc o x old (fun e => ho e.symm)]
      by_cases hmem : old ∈ rest
      · rw [if_pos hmem, if_pos (List.mem_cons_of_mem o hmem)]
      · rw [if_neg hmem, if_neg (fun hm => by
          rcases List.mem_cons.mp hm with heq | hm2
          · exact ho heq
          · exact hmem hm2)]

theorem snd_foldl_add_new (removed : List (Nat × List Nat)) :
    ∀ (walk : List (Nat × Nat)) (rc : List (Nat × List Nat)) (s : List Nat) (x : Nat),
      x ∈ (walk.foldl (add_new removed) (rc, s)).2 ↔
        x ∈ s ∨ x ∈ walk.map (fun p => p.2) := by
  intro walk
  induction walk with
  | nil => intro rc s x; simp
  | cons p rest ih =>
    intro rc s x
    simp only [List.foldl_cons]
    have hstep : add_new removed (rc, s) p =
        ((add_new removed (rc, s) p).1, setInsert p.2 s) := rfl
    rw [hstep, ih]
    rw [show ∀ l : List Nat, (x ∈ setInsert p.2 l ↔ x ∈ l ∨ x = p.2) from fun l => by
      simp only [setInsert]
      split
      · next hc =>
        constructor
        · exact Or.inl
        · rintro (h | rfl)
          · exact h
          · exact List.elem_iff.mp hc
      · simp [or_comm]]
    simp only [List.map_cons, List.mem_cons]
    tauto

theorem fst_foldl_add_new (removed : List (Nat × List Nat))
    (hv : ∀ ch l, alLookup removed ch = some l → l.Nodup) :
    ∀ (walk : List (Nat × Nat)) (rc : List (Nat × List Nat)) (s : List Nat) (old : Nat),
      alLookup (walk.foldl (add_new removed) (rc, s)).1 old =
        match alLookup rc old with
        | none =>
          if walk.filter (pushTest removed old) = [] then none
          else some ((walk.filter (pushTest removed old)).map Prod.fst)
        | some l => some (l ++ (walk.filter (pushTest removed old)).map Prod.fst) := by
  intro walk
  induction walk with
  | nil =>
    intro rc s old
    cases h : alLookup rc old <;> simp [h]
  | cons p rest ih =>
    intro rc s old
    simp only [List.foldl_cons]
    have hstep : (add_new removed (rc, s) p).1 =
        match alLookup removed p.2 with
        | none => rc
        | some olds => olds.foldl (fun rc o => pushOne rc o p.1) rc := rfl
    have hpair : add_new removed (rc, s) p =
        ((add_new removed (rc, s) p).1, setInsert p.2 s) := rfl
    rw [hpair, ih]
    cases hrm : alLookup removed p.2 with
    | none =>
      have hpt : pushTest removed old p = false := by
        simp [pushTest, hrm]
      have hfil : (p :: rest).filter (pushTest removed old) =
          rest.filter (pushTest removed old) := by
        rw [List.filter_cons, if_neg (by simp [hpt])]
      rw [hstep, hrm, hfil]
    | some olds =>
      have hlook : alLookup (add_new removed (rc, s) p).1 old =
          if old ∈ olds then some (((alLookup rc old).getD []) ++ [p.1])
          else alLookup rc old := by
        rw [hstep, hrm]
        exact lookup_foldl_pushOne olds rc p.1 old (hv p.2 olds hrm)
      by_cases hmem : old ∈ olds
      · have hpt : pushTest removed old p = true := by
          simp only [pushTest, hrm]
          exact List.elem_iff.mpr hmem
        have hfil : (p :: rest).filter (pushTest removed old) =
            p :: rest.filter (pushTest removed old) := by
          rw [List.filter_cons, if_pos (by simp [hpt])]
        rw [hlook, if_pos hmem, hfil]
        cases hrc : alLookup rc old with
        | none => simp
        | some l => simp
      · have hpt : pushTest removed old p = false := by
          simp only [pushTest, hrm]
          cases hc : olds.contains old with
          | false => rfl
          | true => exact absurd (List.elem_iff.mp hc) hmem
        have hfil : (p :: rest).filter (pushTest removed old) =
            rest.filter (pushTest removed old) := by
          rw [List.filter_cons, if_neg (by simp [hpt])]
        rw [hlook, if_neg hmem, hfil]

theorem apply_rewrites_spec (store : Store) :
    ∀ (entries : List (Nat × List Nat)) (st : MRepo),
      (alKeys entries).Nodup →
      (∀ e ∈ entries, e.1 ≠ store.root) →
      ∃ st', apply_rewrites store entries st = some st' ∧
        (∀ e ∈ entries, alLookup st'.parentMapping e.1 = some (rewriteValue e.2)) ∧
        (∀ id, id ∉ alKeys entries →
          alLookup st'.parentMapping id = alLookup st.parentMapping id) := by
  intro entries
  induction entries with
  | nil =>
    intro st _ _
    exact ⟨st, rfl, fun e he => absurd he (List.not_mem_nil e), fun id _ => rfl⟩
  | cons e rest ih =>
    intro st hnd hroot
    obtain ⟨old, news⟩ := e
    have hold_root : old ≠ store.root := hroot (old, news) (List.mem_cons_self _ _)
    have hndK : (old :: alKeys rest).Nodup := by
      simpa only [alKeys, List.map_cons] using hnd
    have hnd2 : old ∉ alKeys rest := (List.nodup_cons.mp hndK).1
    have hnd' : (alKeys rest).Nodup := (List.nodup_cons.mp hndK).2
    have hstep : ∃ st1, (match news with
          | [n] => set_rewritten_commit store st old n
          | _ => set_divergent_rewrite store st old news) = some st1 ∧
        st1.parentMapping = alInsert old (rewriteValue news) st.parentMapping := by
      match news with
      | [n] =>
        have hs : set_rewritten_commit store st old n =
            some { st with parentMapping := alInsert old (Rewrite.Rewritten n) st.parentMapping } := by
          simp [set_rewritten_commit, hold_root]
        exact ⟨_, hs, rfl⟩
      | [] =>
        have hs : set_divergent_rewrite store st old [] =
            some { st with parentMapping := alInsert old (Rewrite.Divergent []) st.parentMapping } := by
          simp [set_divergent_rewrite, hold_root]
        exact ⟨_, hs, rfl⟩
      | n1 :: n2 :: tl =>
        have hs : set_divergent_rewrite store st old (n1 :: n2 :: tl) =
            some { st with parentMapping := alInsert old (Rewrite.Divergent (n1 :: n2 :: tl)) st.parentMapping } := by
          simp [set_divergent_rewrite, hold_root]
        exact ⟨_, hs, rfl⟩
    obtain ⟨st1, hst1, hpm1⟩ := hstep
    obtain ⟨st', hrun, hset, hun⟩ := ih st1 hnd'
      (fun e he => hroot e (List.mem_cons_of_mem _ he))
    refine ⟨st', ?_, ?_, ?_⟩
    · simp only [apply_rewrites, hst1]
      exact hrun
    · intro e he
      rcases List.mem_cons.mp he with heq | he2
      · subst heq
        rw [hun old hnd2, hpm1]
        exact alLookup_insert_self _ _ _
      · exact hset e he2
    · intro id hid
      have hid1 : id ∉ alKeys rest := fun hm => hid (by simp [alKeys] at hm ⊢; tauto)
      have hid2 : id ≠ old := fun heq => hid (by simp [alKeys, heq])
      rw [hun id hid1, hpm1]
      exact alLookup_insert_ne _ _ _ _ (fun e => hid2 e.symm)

theorem abandon_all_spec (store : Store) :
    ∀ (ids : List Nat) (st : MRepo),
      ids.Nodup →
      (∀ id ∈ ids, id ≠ store.root) →
      (∀ id ∈ ids, (Store.get_commit store id).isSome) →
      ∃ st', abandon_all store ids st = some st' ∧
        (∀ id ∈ ids, ∃ c, Store.get_commit store id = some c ∧
          alLookup st'.parentMapping id = some (.Abandoned c.parents)) ∧
        (∀ id, id ∉ ids →
          alLookup st'.parentMapping id = alLookup st.parentMapping id) := by
  intro ids
  induction ids with
  | nil =>
    intro st _ _ _
    exact ⟨st, rfl, fun id hid => absurd hid (List.not_mem_nil id), fun id _ => rfl⟩
  | cons id0 rest ih =>
    intro st hnd hroot hsome
    obtain ⟨hno, hnd'⟩ := List.nodup_cons.mp hnd
    have hroot0 : id0 ≠ store.root := hroot id0 (List.mem_cons_self _ _)
    obtain ⟨c0, hc0⟩ := Option.isSome_iff_exists.mp
      (hsome id0 (List.mem_cons_self _ _))
    have hst1 : record_abandoned_commit store st id0 c0 =
        some { st with parentMapping := alInsert id0 (.Abandoned c0.parents) st.parentMapping } := by
      simp [record_abandoned_commit, record_abandoned_commit_with_parents, hroot0]
    obtain ⟨st', hrun, hset, hun⟩ := ih
      { st with parentMapping := alInsert id0 (.Abandoned c0.parents) st.parentMapping }
      hnd' (fun i hi => hroot i (List.mem_cons_of_mem _ hi))
      (fun i hi => hsome i (List.mem_cons_of_mem _ hi))
    refine ⟨st', ?_, ?_, ?_⟩
    · simp only [abandon_all, hc0, hst1]
      exact hrun
    · intro i hi
      rcases List.mem_cons.mp hi with heq | hi2
      · subst heq
        refine ⟨c0, hc0, ?_⟩
        rw [hun i hno]
        exact alLookup_insert_self _ _ _
      · exact hset i hi2
    · intro i hi
      have hi1 : i ∉ rest := fun hm => hi (List.mem_cons_of_mem _ hm)
      have hi2 : i ≠ id0 := fun heq => hi (by simp [heq])
      rw [hun i hi1]
      exact alLookup_insert_ne _ _ _ _ (fun e => hi2 e.symm)

theorem apply_abandons_spec (store : Store) (rch : List Nat) :
    ∀ (groups : List (Nat × List Nat)) (st : MRepo),
      (∀ g ∈ groups, g.2.Nodup) →
      (∀ g ∈ groups, ∀ id ∈ g.2, id ≠ store.root) →
      (∀ g ∈ groups, ∀ id ∈ g.2, (Store.get_commit store id).isSome) →
      List.Pairwise (fun g g' => ∀ x ∈ g.2, x ∉ g'.2) groups →
      ∃ st', apply_abandons store rch groups st = some st' ∧
        (∀ g ∈ groups, rch.contains g.1 = false → ∀ id ∈ g.2,
          ∃ c, Store.get_commit store id = some c ∧
            alLookup st'.parentMapping id = some (.Abandoned c.parents)) ∧
        (∀ id, (∀ g ∈ groups, rch.contains g.1 = false → id ∉ g.2) →
          alLookup st'.parentMapping id = alLookup st.parentMapping id) := by
  intro groups
  induction groups with
  | nil =>
    intro st _ _ _ _
    exact ⟨st, rfl, fun g hg => absurd hg (List.not_mem_nil g), fun id _ => rfl⟩
  | cons g0 rest ih =>
    intro st hnd hroot hsome hpw
    obtain ⟨hpw0, hpw'⟩ := List.pairwise_cons.mp hpw
    by_cases hc : rch.contains g0.1
    · obtain ⟨st', hrun, hset, hun⟩ := ih st
        (fun g hg => hnd g (List.mem_cons_of_mem _ hg))
        (fun g hg => hroot g (List.mem_cons_of_mem _ hg))
        (fun g hg => hsome g (List.mem_cons_of_mem _ hg)) hpw'
      refine ⟨st', ?_, ?_, ?_⟩
      · simp only [apply_abandons, if_pos hc]
        exact hrun
      · intro g hg hgc
        rcases List.mem_cons.mp hg with heq | hg2
        · subst heq
          rw [hc] at hgc
          exact absurd hgc (by simp)
        · exact hset g hg2 hgc
      · intro id hid
        exact hun id (fun g hg hgc => hid g (List.mem_cons_of_mem _ hg) hgc)
    · obtain ⟨st1, hab, habset, habun⟩ := abandon_all_spec store g0.2 st
        (hnd g0 (List.mem_cons_self _ _))
        (hroot g0 (List.mem_cons_self _ _))
        (hsome g0 (List.mem_cons_self _ _))
      obtain ⟨st', hrun, hset, hun⟩ := ih st1
        (fun g hg => hnd g (List.mem_cons_of_mem _ hg))
        (fun g hg => hroot g (List.mem_cons_of_mem _ hg))
        (fun g hg => hsome g (List.mem_cons_of_mem _ hg)) hpw'
      refine ⟨st', ?_, ?_, ?_⟩
      · simp only [apply_abandons, if_neg hc, hab]
        exact hrun
      · intro g hg hgc
        rcases List.mem_cons.mp hg with heq | hg2
        · subst heq
          intro id hid
          obtain ⟨c, hcg, hcl⟩ := habset id hid
          refine ⟨c, hcg, ?_⟩
          rw [hun id (fun g' hg' _ => hpw0 g' hg' id hid), hcl]
        · exact hset g hg2 hgc
      · intro id hid
        rw [hun id (fun g hg hgc => hid g (List.mem_cons_of_mem _ hg) hgc)]
        exact habun id (hid g0 (List.mem_cons_self _ _) (by simpa using hc))

theorem nodup_fst_unique {α : Type} (l : List (Nat × α))
    (hnd : (l.map Prod.fst).Nodup) (k : Nat) (a b : α)
    (ha : (k, a) ∈ l) (hb : (k, b) ∈ l) : a = b := by
  induction l with
  | nil => cases ha
  | cons e rest ih =>
    have hnd2 : (e.1 :: rest.map Prod.fst).Nodup := by
      rw [List.map_cons] at hnd
      exact hnd
    have hnd' := List.nodup_cons.mp hnd2
    rcases List.mem_cons.mp ha with heqa | ha2
    · rcases List.mem_cons.mp hb with heqb | hb2
      · rw [← heqb] at heqa
        exact (Prod.mk.injEq _ _ _ _).mp heqa |>.2
      · exfalso
        have : k ∈ rest.map Prod.fst := List.mem_map.mpr ⟨(k, b), hb2, rfl⟩
        rw [← heqa] at hnd'
        exact hnd'.1 this
    · rcases List.mem_cons.mp hb with heqb | hb2
      · exfalso
        have : k ∈ rest.map Prod.fst := List.mem_map.mpr ⟨(k, a), ha2, rfl⟩
        rw [← heqb] at hnd'
        exact hnd'.1 this
      · exact ih hnd'.2 ha2 hb2

theorem mem_filter_map_fst (walk : List (Nat × Nat)) (cid ch : Nat) :
    cid ∈ (walk.filter (fun q => q.2 == ch)).map Prod.fst ↔ (cid, ch) ∈ walk := by
  constructor
  · intro h
    obtain ⟨q, hq, hfst⟩ := List.mem_map.mp h
    have hq2 := List.mem_filter.mp hq
    have hch : q.2 = ch := by simpa using hq2.2
    have : q = (cid, ch) := by
      rw [← hfst, ← hch]
    rw [← this]
    exact hq2.1
  · intro h
    refine List.mem_map.mpr ⟨(cid, ch), List.mem_filter.mpr ⟨h, by simp⟩, rfl⟩

theorem foldl_pushOne_keys_nodup :
    ∀ (olds : List Nat) (rc : List (Nat × List Nat)) (x : Nat),
      (alKeys rc).Nodup →
      (alKeys (olds.foldl (fun rc o => pushOne rc o x) rc)).Nodup := by
  intro olds
  induction olds with
  | nil => intro rc x h; exact h
  | cons o rest ih =>
    intro rc x h
    simp only [List.foldl_cons]
    refine ih (pushOne rc o x) x ?_
    rw [pushOne.eq_def]
    cases hm : alLookup rc o with
    | none => exact alKeys_insert_nodup rc o [x] h
    | some l => exact alKeys_insert_nodup rc o (l ++ [x]) h

theorem fst_foldl_add_new_keys_nodup (removed : List (Nat × List Nat)) :
    ∀ (walk : List (Nat × Nat)) (rc : List (Nat × List Nat)) (s : List Nat),
      (alKeys rc).Nodup →
      (alKeys (walk.foldl (add_new removed) (rc, s)).1).Nodup := by
  intro walk
  induction walk with
  | nil => intro rc s h; exact h
  | cons p rest ih =>
    intro rc s h
    simp only [List.foldl_cons]
    have hpair : add_new removed (rc, s) p =
        ((add_new removed (rc, s) p).1, setInsert p.2 s) := rfl
    rw [hpair]
    refine ih _ _ ?_
    have hstep : (add_new removed (rc, s) p).1 =
        match alLookup removed p.2 with
        | none => rc
        | some olds => olds.foldl (fun rc o => pushOne rc o p.1) rc := rfl
    rw [hstep]
    cases hrm : alLookup removed p.2 with
    | none => exact h
    | some olds => exact foldl_pushOne_keys_nodup olds rc p.1 h

theorem rewriteValue_of_not_single (news : List Nat) (h : news.length ≠ 1) :
    rewriteValue news = .Divergent news := by
  match news with
  | [] => rfl
  | [n] => exact absurd rfl h
  | n1 :: n2 :: tl => rfl

/-- C9: `record_rewrites` classifies every removed commit (a pair of commit
id and change id from the removed-side walk) against the new-side walk: with
exactly one new-side commit of the same change id the ledger gets
`Rewritten`, with several it gets `Divergent` (listing them in walk order),
and when no new-side commit carries the change id every removed commit of
that change is recorded `Abandoned` with its own parents; all other ledger
entries are untouched.  Hypotheses: the removed walk visits distinct commits,
none of them the root, and all of them present in the store. -/
theorem c9_record_rewrites (store : Store) (removedWalk newWalk : List (Nat × Nat))
    (st : MRepo)
    (hnodupR : (removedWalk.map Prod.fst).Nodup)
    (hroot : ∀ p ∈ removedWalk, p.1 ≠ store.root)
    (hstore : ∀ p ∈ removedWalk, (Store.get_commit store p.1).isSome) :
    ∃ st', record_rewrites store removedWalk newWalk st = some st' ∧
      (∀ p ∈ removedWalk,
        (newWalk.filter (fun q => q.2 == p.2) = [] →
          ∃ c, Store.get_commit store p.1 = some c ∧
            alLookup st'.parentMapping p.1 = some (.Abandoned c.parents)) ∧
        (∀ n, (newWalk.filter (fun q => q.2 == p.2)).map Prod.fst = [n] →
          alLookup st'.parentMapping p.1 = some (.Rewritten n)) ∧
        (1 < ((newWalk.filter (fun q => q.2 == p.2)).map Prod.fst).length →
          alLookup st'.parentMapping p.1 =
            some (.Divergent ((newWalk.filter (fun q => q.2 == p.2)).map Prod.fst)))) ∧
      (∀ id, id ∉ removedWalk.map Prod.fst →
        alLookup st'.parentMapping id = alLookup st.parentMapping id) := by
  by_cases hne : removedWalk = []
  · subst hne
    exact ⟨st, rfl, fun p hp => absurd hp (List.not_mem_nil p), fun id _ => rfl⟩
  · have hRfold_ne : removedWalk.foldl add_removed [] ≠ [] :=
      foldl_add_removed_ne_nil removedWalk [] (Or.inr hne)
    have KN : (alKeys (removedWalk.foldl add_removed [])).Nodup :=
      foldl_add_removed_keys_nodup removedWalk [] (by simp [alKeys])
    have LK : ∀ ch, alLookup (removedWalk.foldl add_removed []) ch =
        (if removedWalk.filter (fun q => q.2 == ch) = [] then none
         else some ((removedWalk.filter (fun q => q.2 == ch)).map Prod.fst)) := by
      intro ch
      rw [lookup_foldl_add_removed removedWalk [] ch]
      rfl
    have HV : ∀ ch l, alLookup (removedWalk.foldl add_removed []) ch = some l →
        l.Nodup := by
      intro ch l h
      rw [LK ch] at h
      split at h
      · exact absurd h (by simp)
      · cases h
        exact List.Nodup.sublist
          (List.Sublist.map Prod.fst (List.filter_sublist removedWalk)) hnodupR
    have UQ : ∀ cid ch ch', (cid, ch) ∈ removedWalk → (cid, ch') ∈ removedWalk →
        ch = ch' :=
      fun cid ch ch' h1 h2 => nodup_fst_unique removedWalk hnodupR cid ch ch' h1 h2
    have hrootC : ∀ id ∈ removedWalk.map Prod.fst, id ≠ store.root := by
      intro id hid
      obtain ⟨p, hp, he⟩ := List.mem_map.mp hid
      exact he ▸ hroot p hp
    have hstoreC : ∀ id ∈ removedWalk.map Prod.fst,
        (Store.get_commit store id).isSome := by
      intro id hid
      obtain ⟨p, hp, he⟩ := List.mem_map.mp hid
      exact he ▸ hstore p hp
    have RC : ∀ old, alLookup
        (newWalk.foldl (add_new (removedWalk.foldl add_removed [])) ([], [])).1 old =
        (if newWalk.filter (pushTest (removedWalk.foldl add_removed []) old) = []
         then none
         else some ((newWalk.filter
           (pushTest (removedWalk.foldl add_removed []) old)).map Prod.fst)) := by
      intro old
      rw [fst_foldl_add_new (removedWalk.foldl add_removed []) HV newWalk [] [] old]
      rfl
    have PT : ∀ (cid ch : Nat), (cid, ch) ∈ removedWalk → ∀ q : Nat × Nat,
        pushTest (removedWalk.foldl add_removed []) cid q = (q.2 == ch) := by
      intro cid ch hmem q
      simp only [pushTest]
      rw [LK q.2]
      by_cases hq : q.2 = ch
      · subst hq
        have hin : (cid, q.2) ∈ removedWalk.filter (fun r => r.2 == q.2) :=
          List.mem_filter.mpr ⟨hmem, by simp⟩
        have hne2 : removedWalk.filter (fun r => r.2 == q.2) ≠ [] := by
          intro hnil
          rw [hnil] at hin
          exact absurd hin (List.not_mem_nil _)
        rw [if_neg hne2]
        have hc : cid ∈ (removedWalk.filter (fun r => r.2 == q.2)).map Prod.fst :=
          (mem_filter_map_fst removedWalk cid q.2).mpr hmem
        rw [show (q.2 == q.2) = true by simp]
        exact List.elem_iff.mpr hc
      · rw [show (q.2 == ch) = false by simp [hq]]
        split
        · rfl
        · rename_i new_ids heq
          by_cases hf : removedWalk.filter (fun r => r.2 == q.2) = []
          · rw [if_pos hf] at heq
            exact absurd heq (by simp)
          · rw [if_neg hf] at heq
            have h3 := (Option.some.injEq _ _).mp heq
            rw [← h3]
            cases hcc : ((removedWalk.filter (fun r => r.2 == q.2)).map Prod.fst).contains cid with
            | false => rfl
            | true =>
              have := (mem_filter_map_fst removedWalk cid q.2).mp (List.elem_iff.mp hcc)
              exact absurd (UQ cid ch q.2 hmem this) (fun e => hq e.symm)
    have FC : ∀ (cid ch : Nat), (cid, ch) ∈ removedWalk →
        newWalk.filter (pushTest (removedWalk.foldl add_removed []) cid) =
          newWalk.filter (fun q => q.2 == ch) :=
      fun cid ch hmem => List.filter_congr (fun q _ => PT cid ch hmem q)
    have RCKN : (alKeys
        (newWalk.foldl (add_new (removedWalk.foldl add_removed [])) ([], [])).1).Nodup :=
      fst_foldl_add_new_keys_nodup (removedWalk.foldl add_removed []) newWalk [] []
        (by simp [alKeys])
    have RCsub : ∀ id, id ∈ alKeys
        (newWalk.foldl (add_new (removedWalk.foldl add_removed [])) ([], [])).1 →
        id ∈ removedWalk.map Prod.fst := by
      intro id hid
      obtain ⟨v, hv⟩ := exists_alLookup_of_mem_keys _ id hid
      rw [RC id] at hv
      split at hv
      · exact absurd hv (by simp)
      · next hne3 =>
        obtain ⟨q, hq⟩ := List.exists_mem_of_ne_nil _ hne3
        have hq2 := List.mem_filter.mp hq
        have hpt := hq2.2
        simp only [pushTest] at hpt
        by_cases hf : removedWalk.filter (fun r => r.2 == q.2) = []
        · rw [LK q.2, if_pos hf] at hpt
          exact absurd hpt (by simp)
        · rw [LK q.2, if_neg hf] at hpt
          have hpt2 : ((removedWalk.filter (fun r => r.2 == q.2)).map Prod.fst).contains id
              = true := hpt
          have := (mem_filter_map_fst removedWalk id q.2).mp (List.elem_iff.mp hpt2)
          exact List.mem_map.mpr ⟨(id, q.2), this, rfl⟩
    obtain ⟨st1, hrun1, hset1, hun1⟩ := apply_rewrites_spec store
      (newWalk.foldl (add_new (removedWalk.foldl add_removed [])) ([], [])).1 st RCKN
      (fun e he => hrootC e.1 (RCsub e.1 (List.mem_map.mpr ⟨e, he, rfl⟩)))
    have GENT : ∀ g ∈ removedWalk.foldl add_removed [],
        alLookup (removedWalk.foldl add_removed []) g.1 = some g.2 := by
      intro g hg
      exact alLookup_of_mem_nodup _ g.1 g.2 (by simpa using hg) KN
    have GVAL : ∀ g ∈ removedWalk.foldl add_removed [],
        g.2 = (removedWalk.filter (fun q => q.2 == g.1)).map Prod.fst ∧
          removedWalk.filter (fun q => q.2 == g.1) ≠ [] := by
      intro g hg
      have h := GENT g hg
      rw [LK g.1] at h
      split at h
      · exact absurd h (by simp)
      · next hne4 =>
        have h2 := (Option.some.injEq _ _).mp h
        exact ⟨h2.symm, hne4⟩
    have GIDS : ∀ g ∈ removedWalk.foldl add_removed [], ∀ id ∈ g.2,
        id ∈ removedWalk.map Prod.fst := by
      intro g hg id hid
      rw [(GVAL g hg).1] at hid
      obtain ⟨q, hq, he⟩ := List.mem_map.mp hid
      exact List.mem_map.mpr ⟨q, (List.mem_filter.mp hq).1, he⟩
    have hkeysPW : List.Pairwise (fun g g' : Nat × List Nat => g.1 ≠ g'.1)
        (removedWalk.foldl add_removed []) := List.pairwise_map.mp KN
    have hPW : List.Pairwise (fun g g' => ∀ x ∈ g.2, x ∉ g'.2)
        (removedWalk.foldl add_removed []) := by
      refine hkeysPW.imp_of_mem ?_
      intro g g' hg hg' hne5 x hx hx'
      rw [(GVAL g hg).1] at hx
      rw [(GVAL g' hg').1] at hx'
      have h1 := (mem_filter_map_fst removedWalk x g.1).mp hx
      have h2 := (mem_filter_map_fst removedWalk x g'.1).mp hx'
      exact hne5 (UQ x g.1 g'.1 h1 h2)
    obtain ⟨st', hrun2, hset2, hun2⟩ := apply_abandons_spec store
      (newWalk.foldl (add_new (removedWalk.foldl add_removed [])) ([], [])).2
      (removedWalk.foldl add_removed []) st1
      (fun g hg => (GVAL g hg).1 ▸ List.Nodup.sublist
        (List.Sublist.map Prod.fst (List.filter_sublist removedWalk)) hnodupR)
      (fun g hg id hid => hrootC id (GIDS g hg id hid))
      (fun g hg id hid => hstoreC id (GIDS g hg id hid))
      hPW
    have hRCH : ∀ x, x ∈ (newWalk.foldl
        (add_new (removedWalk.foldl add_removed [])) ([], [])).2 ↔
        x ∈ newWalk.map (fun p => p.2) := by
      intro x
      rw [snd_foldl_add_new (removedWalk.foldl add_removed []) newWalk [] [] x]
      simp
    refine ⟨st', ?_, ?_, ?_⟩
    · have hbody : record_rewrites store removedWalk newWalk st =
          apply_abandons store
            (newWalk.foldl (add_new (removedWalk.foldl add_removed [])) ([], [])).2
            (removedWalk.foldl add_removed []) st1 := by
        simp only [record_rewrites]
        rw [if_neg (by simpa [List.isEmpty_iff] using hRfold_ne)]
        simp only [hrun1]
      rw [hbody]
      exact hrun2
    · intro p hp
      have hmemp : (p.1, p.2) ∈ removedWalk := by simpa using hp
      refine ⟨?_, ?_, ?_⟩
      · intro hfe
        have hcontains : (newWalk.foldl
            (add_new (removedWalk.foldl add_removed [])) ([], [])).2.contains p.2
            = false := by
          refine (contains_eq_false_iff _ _).mpr ?_
          intro hmem
          obtain ⟨q, hq, he⟩ := List.mem_map.mp ((hRCH p.2).mp hmem)
          have : q ∈ newWalk.filter (fun r => r.2 == p.2) :=
            List.mem_filter.mpr ⟨hq, by simp [he]⟩
          rw [hfe] at this
          exact absurd this (List.not_mem_nil q)
        have hlkg : alLookup (removedWalk.foldl add_removed []) p.2 =
            some ((removedWalk.filter (fun q => q.2 == p.2)).map Prod.fst) := by
          rw [LK p.2]
          refine if_neg ?_
          intro hnil
          have hin : (p.1, p.2) ∈ removedWalk.filter (fun r => r.2 == p.2) :=
            List.mem_filter.mpr ⟨hmemp, by simp⟩
          rw [hnil] at hin
          exact absurd hin (List.not_mem_nil _)
        have hgmem : (p.2, (removedWalk.filter (fun q => q.2 == p.2)).map Prod.fst) ∈
            removedWalk.foldl add_removed [] := alLookup_mem _ _ _ hlkg
        have hidmem : p.1 ∈ (removedWalk.filter (fun q => q.2 == p.2)).map Prod.fst :=
          (mem_filter_map_fst removedWalk p.1 p.2).mpr hmemp
        exact hset2 _ hgmem hcontains p.1 hidmem
      · intro n hn
        have hfne : newWalk.filter (fun q => q.2 == p.2) ≠ [] := by
          intro hnil
          rw [hnil] at hn
          exact absurd hn (by simp)
        have hlrc : alLookup (newWalk.foldl
            (add_new (removedWalk.foldl add_removed [])) ([], [])).1 p.1 =
            some ((newWalk.filter (fun q => q.2 == p.2)).map Prod.fst) := by
          rw [RC p.1, FC p.1 p.2 hmemp, if_neg hfne]
        have hentry := alLookup_mem _ _ _ hlrc
        have hst1 := hset1 _ hentry
        have hcontains : (newWalk.foldl
            (add_new (removedWalk.foldl add_removed [])) ([], [])).2.contains p.2
            = true := by
          obtain ⟨q, hq⟩ := List.exists_mem_of_ne_nil _ hfne
          have hq2 := List.mem_filter.mp hq
          refine List.elem_iff.mpr ((hRCH p.2).mpr ?_)
          exact List.mem_map.mpr ⟨q, hq2.1, by simpa using hq2.2⟩
        have hpres : alLookup st'.parentMapping p.1 =
            alLookup st1.parentMapping p.1 := by
          refine hun2 p.1 ?_
          intro g hg hgc hmem
          have h1 := (mem_filter_map_fst removedWalk p.1 g.1).mp
            ((GVAL g hg).1 ▸ hmem)
          have h2 := UQ p.1 g.1 p.2 h1 hmemp
          rw [h2] at hgc
          rw [hcontains] at hgc
          exact absurd hgc (by simp)
        rw [hpres, hst1, hn]
        rfl
      · intro hlen
        have hfne : newWalk.filter (fun q => q.2 == p.2) ≠ [] := by
          intro hnil
          rw [hnil] at hlen
          simp at hlen
        have hlrc : alLookup (newWalk.foldl
            (add_new (removedWalk.foldl add_removed [])) ([], [])).1 p.1 =
            some ((newWalk.filter (fun q => q.2 == p.2)).map Prod.fst) := by
          rw [RC p.1, FC p.1 p.2 hmemp, if_neg hfne]
        have hentry := alLookup_mem _ _ _ hlrc
        have hst1 := hset1 _ hentry
        have hcontains : (newWalk.foldl
            (add_new (removedWalk.foldl add_removed [])) ([], [])).2.contains p.2
            = true := by
          obtain ⟨q, hq⟩ := List.exists_mem_of_ne_nil _ hfne
          have hq2 := List.mem_filter.mp hq
          refine List.elem_iff.mpr ((hRCH p.2).mpr ?_)
          exact List.mem_map.mpr ⟨q, hq2.1, by simpa using hq2.2⟩
        have hpres : alLookup st'.parentMapping p.1 =
            alLookup st1.parentMapping p.1 := by
          refine hun2 p.1 ?_
          intro g hg hgc hmem
          have h1 := (mem_filter_map_fst removedWalk p.1 g.1).mp
            ((GVAL g hg).1 ▸ hmem)
          have h2 := UQ p.1 g.1 p.2 h1 hmemp
          rw [h2] at hgc
          rw [hcontains] at hgc
          exact absurd hgc (by simp)
        rw [hpres, hst1,
          rewriteValue_of_not_single _ (by simp only []; omega)]
    · intro id hid
      have h1 : alLookup st'.parentMapping id = alLookup st1.parentMapping id := by
        refine hun2 id ?_
        intro g hg _ hmem
        exact hid (GIDS g hg id hmem)
      have h2 : alLookup st1.parentMapping id = alLookup st.parentMapping id := by
        refine hun1 id ?_
        intro hk
        exact hid (RCsub id hk)
      rw [h1, h2]

/-- Witness for C9: three removed commits — one rewritten (single new
commit), one divergent (two new commits), one abandoned (no new commit). -/
theorem c9_record_rewrites_witness :
    ∃ st', record_rewrites
        { root := 0, commits := [(10, ⟨[1], 0, 100⟩), (11, ⟨[1], 0, 101⟩),
          (12, ⟨[2], 0, 102⟩)] }
        [(10, 100), (11, 101), (12, 102)] [(20, 100), (21, 101), (22, 101)]
        emptyRepo = some st' ∧
      (∀ p ∈ [((10 : Nat), (100 : Nat)), (11, 101), (12, 102)],
        ([(20, 100), (21, 101), (22, 101)].filter (fun q => q.2 == p.2) = [] →
          ∃ c, Store.get_commit
            { root := 0, commits := [(10, ⟨[1], 0, 100⟩), (11, ⟨[1], 0, 101⟩),
              (12, ⟨[2], 0, 102⟩)] } p.1 = some c ∧
            alLookup st'.parentMapping p.1 = some (.Abandoned c.parents)) ∧
        (∀ n, (([((20 : Nat), (100 : Nat)), (21, 101), (22, 101)].filter
            (fun q => q.2 == p.2)).map Prod.fst) = [n] →
          alLookup st'.parentMapping p.1 = some (.Rewritten n)) ∧
        (1 < (([((20 : Nat), (100 : Nat)), (21, 101), (22, 101)].filter
            (fun q => q.2 == p.2)).map Prod.fst).length →
          alLookup st'.parentMapping p.1 =
            some (.Divergent (([((20 : Nat), (100 : Nat)), (21, 101),
              (22, 101)].filter (fun q => q.2 == p.2)).map Prod.fst)))) ∧
      (∀ id, id ∉ [((10 : Nat), (100 : Nat)), (11, 101), (12, 102)].map Prod.fst →
        alLookup st'.parentMapping id = alLookup emptyRepo.parentMapping id) :=
  c9_record_rewrites
    { root := 0, commits := [(10, ⟨[1], 0, 100⟩), (11, ⟨[1], 0, 101⟩),
      (12, ⟨[2], 0, 102⟩)] }
    [(10, 100), (11, 101), (12, 102)] [(20, 100), (21, 101), (22, 101)]
    emptyRepo (by decide) (by decide) (by decide)

end JJ
